import Mathlib

/-! # gabac: bit input stream, binarization table and transformation table

A shallow embedding of `gabac/bit_input_stream.cpp` and `gabac/constants.cpp`.

Conventions of the embedding:

* `unsigned int` values are natural numbers; where the C++ arithmetic can wrap the
  reduction modulo `2^32` (or `2^64` for `uint64_t`) is written out.
* `std::runtime_error("Index out of bounds")` raised by `readIn` is the result `none`.
* `assert(...)` does not change what a function computes (it is compiled out under
  `NDEBUG`); for `read` and `readByte` the outcome of every assertion met on the executed
  path is recorded next to the result, so that "no assertion is violated" is a statement
  about that record.
* `DataBlock`, `BlockStepper` and the per-block transformation routines are declared in
  headers that are not among the sources; they are modelled from the specification or
  taken as parameters, and are marked as such.
-/

namespace gabac

/-! ## Data blocks and steppers -/

/-- Modelled from the spec: `DataBlock` (declared in `gabac/data_block.h`, which is missing
from the sources), a buffer of integers of one uniform word size. The words are kept as
numbers; the little-endian byte layout is not modelled. -/
structure DataBlock where
  wordSize : Nat
  words : List Nat
deriving DecidableEq, Repr

/-- Modelled from the spec: `construct(length, wordSize)`, as used in
`gabac::DataBlock(0, 1)`: a block of `length` zero words. -/
def DataBlock.construct (length wordSize : Nat) : DataBlock :=
  { wordSize := wordSize, words := List.replicate length 0 }

/-- Modelled from the spec: `getWordSize()` of a `DataBlock`. -/
def DataBlock.getWordSize (d : DataBlock) : Nat := d.wordSize

/-- Modelled from the spec: the stepper (`BlockStepper`, missing from the sources), a
forward cursor over the words of a block. -/
structure BlockStepper where
  block : List Nat
  pos : Nat
deriving DecidableEq, Repr

/-- Modelled from the spec: `isValid()` of the stepper: a word is left to read. -/
def BlockStepper.isValid (r : BlockStepper) : Bool := decide (r.pos < r.block.length)

/-- Modelled from the spec: `get()` of the stepper: the word under the cursor. -/
def BlockStepper.get (r : BlockStepper) : Nat := r.block.getD r.pos 0

/-- Modelled from the spec: `inc()` of the stepper: advance by one word. -/
def BlockStepper.inc (r : BlockStepper) : BlockStepper := { r with pos := r.pos + 1 }

/-- Modelled from the spec: `getReader()` of a `DataBlock`: a stepper at the first word. -/
def DataBlock.getReader (d : DataBlock) : BlockStepper := { block := d.words, pos := 0 }

/-! ## `bit_input_stream.cpp` -/

/-- The function `readIn` (lines 11-20): `none` is the thrown "Index out of bounds" error,
otherwise the current word cast to `unsigned char` and the advanced stepper. -/
def readIn (reader : BlockStepper) : Option (Nat × BlockStepper) :=
  if !reader.isValid then none
  else
    let byte := reader.get % 256
    some (byte, reader.inc)

/-- The members of `BitInputStream`: `m_heldBits` is an `unsigned char`,
`m_numHeldBits` an `unsigned int`. -/
structure BitInputStream where
  m_bitstream : DataBlock
  m_reader : BlockStepper
  m_heldBits : Nat
  m_numHeldBits : Nat
deriving DecidableEq, Repr

/-- The method `BitInputStream::reset` (lines 48-52). -/
def BitInputStream.reset (s : BitInputStream) : BitInputStream :=
  { s with m_heldBits := 0, m_numHeldBits := 0, m_reader := s.m_bitstream.getReader }

/-- The constructor `BitInputStream::BitInputStream` (lines 23-30): the stream takes over
the contents of the block it is given. -/
def BitInputStream.new (bitstream : DataBlock) : BitInputStream :=
  BitInputStream.reset
    { m_bitstream := bitstream, m_reader := bitstream.getReader,
      m_heldBits := 0, m_numHeldBits := 0 }

/-- The method `getNumBitsUntilByteAligned` (lines 36-38). -/
def BitInputStream.getNumBitsUntilByteAligned (s : BitInputStream) : Nat :=
  s.m_numHeldBits &&& 0x7

/-- What a call of `read` that returns leaves behind: the returned value, the stream
afterwards, and the outcome of the two assertions of the body (`assertNumBits` is
`assert(numBits <= 32)` of line 58, `assertAlignedWord` is
`assert(alignedWord <= 255)` of line 95, `true` when the line is not reached). -/
structure ReadResult where
  bits : Nat
  stream : BitInputStream
  assertNumBits : Bool
  assertAlignedWord : Bool
deriving DecidableEq, Repr

/-- The expression `~(0xffu << n)` on 32-bit unsigned integers. -/
def notFFShl (n : Nat) : Nat := (4294967295 : Nat) ^^^ ((0xff <<< n) % 4294967296)

/-- One labelled statement `alignedWord |= (readIn(...) << shift)` of lines 82-88, executed
only when the entry label `entry` lies at or above `label`. -/
def loadStep (entry label shift : Nat) (st : Nat × BlockStepper) :
    Option (Nat × BlockStepper) :=
  if label ≤ entry then
    match readIn st.2 with
    | none => none
    | some (byte, reader) => some (st.1 ||| ((byte <<< shift) % 4294967296), reader)
  else some st

/-- The computed jump of lines 77-88: `numBytesToLoad` selects the label (`L1`, `L2`, `L3`,
`L0`, or no jump when it is 4) and execution falls through the labels below it. -/
def loadWord (reader : BlockStepper) (numBytesToLoad : Nat) : Option (Nat × BlockStepper) :=
  let entry : Nat :=
    if numBytesToLoad = 1 then 1
    else if numBytesToLoad = 2 then 2
    else if numBytesToLoad = 3 then 3
    else if numBytesToLoad ≠ 4 then 0
    else 4
  (loadStep entry 4 24 (0, reader)).bind fun st4 =>
  (loadStep entry 3 16 st4).bind fun st3 =>
  (loadStep entry 2 8 st3).bind fun st2 =>
  loadStep entry 1 0 st2

/-- The method `BitInputStream::read` (lines 55-99). The calls `readIn(m_bitstream,
&m_bitstreamIndex)` are calls of the one `readIn` of the file on the stream's stepper.
The subtractions `m_numHeldBits - numBits`, `numBits - m_numHeldBits` and `numBits - 1u`
cannot wrap on their branch; `32 - numBits` is taken modulo `2^32`. Left shifts are taken
modulo `2^32`: `bits <<= numBits` with `numBits = 32` shifts the value 0 (no bit is held
then), and `readIn(...) << 24u` is OR-ed into an unsigned word. -/
def BitInputStream.read (s : BitInputStream) (numBits : Nat) : Option ReadResult :=
  let assertNumBits := decide (numBits ≤ 32)
  if numBits ≤ s.m_numHeldBits then
    let bits := s.m_heldBits >>> (s.m_numHeldBits - numBits)
    let bits := bits &&& notFFShl numBits
    some { bits := bits,
           stream := { s with m_numHeldBits := s.m_numHeldBits - numBits },
           assertNumBits := assertNumBits,
           assertAlignedWord := true }
  else
    let numBits := numBits - s.m_numHeldBits
    let bits := s.m_heldBits &&& notFFShl s.m_numHeldBits
    let bits := (bits <<< numBits) % 4294967296
    let numBytesToLoad := ((numBits - 1) >>> 3) + 1
    match loadWord s.m_reader numBytesToLoad with
    | none => none
    | some (alignedWord, reader) =>
      let numNextHeldBits := ((32 + 4294967296 - numBits) % 4294967296) % 8
      let bits := bits ||| (alignedWord >>> numNextHeldBits)
      some { bits := bits,
             stream := { s with m_reader := reader,
                                m_numHeldBits := numNextHeldBits,
                                m_heldBits := alignedWord % 256 },
             assertNumBits := assertNumBits,
             assertAlignedWord := decide (alignedWord ≤ 255) }

/-- The method `BitInputStream::readByte` (lines 41-45); the third component is the outcome
of its own `assert(result <= 255)`. -/
def BitInputStream.readByte (s : BitInputStream) : Option (ReadResult × Bool) :=
  match s.read 8 with
  | none => none
  | some r => some ({ r with bits := r.bits % 256 }, decide (r.bits ≤ 255))

/-! ## Reading the stream bit by bit: the reference the reads are compared with -/

/-- Byte `j` of the byte sequence a stream reads: word `j` of the block cast to
`unsigned char` (0 past the end). -/
def byteAt (words : List Nat) (j : Nat) : Nat := words.getD j 0 % 256

/-- Bit `i` of the byte sequence, counted from the most significant bit of byte 0. -/
def bitAt (words : List Nat) (i : Nat) : Nat := (byteAt words (i / 8) / 2 ^ (7 - i % 8)) % 2

/-- The unsigned integer whose `k`-bit binary representation, most significant bit first,
is the bits `pos, pos + 1, ..., pos + k - 1` of the byte sequence. -/
def bitField (words : List Nat) (pos : Nat) : Nat → Nat
  | 0 => 0
  | k + 1 => 2 * bitField words pos k + bitAt words (pos + k)

/-- The read position of a stream in bits: the bytes pulled from the stepper, less the bits
still held. -/
def bitPos (s : BitInputStream) : Nat := 8 * s.m_reader.pos - s.m_numHeldBits

/-- The number of bytes the stepper has not yielded yet. -/
def unreadBytes (s : BitInputStream) : Nat := s.m_reader.block.length - s.m_reader.pos

/-- The number of unread bits: the held bits plus 8 times the unread bytes. -/
def unreadBits (s : BitInputStream) : Nat := s.m_numHeldBits + 8 * unreadBytes s

/-- The stream states reachable from construction by successful calls of `read` (with at
most 32 bits), `readByte` and `reset`. -/
inductive Reachable : BitInputStream → Prop
  | new (d : DataBlock) : Reachable (BitInputStream.new d)
  | read (s : BitInputStream) (k : Nat) (r : ReadResult) :
      Reachable s → k ≤ 32 → s.read k = some r → Reachable r.stream
  | readByte (s : BitInputStream) (r : ReadResult) (a : Bool) :
      Reachable s → s.readByte = some (r, a) → Reachable r.stream
  | reset (s : BitInputStream) : Reachable s → Reachable s.reset

/-- The big-endian value of the `m` bytes that start at byte `pos`. -/
def beWord (words : List Nat) (pos : Nat) : Nat → Nat
  | 0 => 0
  | m + 1 => beWord words pos m * 256 + byteAt words (pos + m)

/-- The invariant of the reachable states: the stepper runs over the stream's own block, at
most 7 bits are held, and the held-bits register is the byte pulled last. -/
def StreamInv (s : BitInputStream) : Prop :=
  s.m_reader.block = s.m_bitstream.words ∧
  s.m_reader.pos ≤ s.m_reader.block.length ∧
  s.m_numHeldBits ≤ 7 ∧
  s.m_heldBits < 256 ∧
  (0 < s.m_numHeldBits →
    0 < s.m_reader.pos ∧ s.m_heldBits = byteAt s.m_reader.block (s.m_reader.pos - 1))


/-! ## `constants.cpp`: the binarization table -/

/-- Conversion of a signed value to `uint64_t` (two's complement, modulo `2^64`). -/
def toUInt64 (i : Int) : Nat := (i % 18446744073709551616).toNat

/-- Conversion of a `uint64_t` value to `int64_t`, the return type of the range lambdas. -/
def toInt64 (n : Nat) : Int :=
  if n % 18446744073709551616 < 9223372036854775808 then ((n % 18446744073709551616 : Nat) : Int)
  else ((n % 18446744073709551616 : Nat) : Int) - 18446744073709551616

/-- The constant `std::numeric_limits<int32_t>::max()`. -/
def INT32_MAX : Int := 2147483647

/-- The constant `std::numeric_limits<int32_t>::min()`. -/
def INT32_MIN : Int := -2147483648

/-- An entry of `binarizationInformation`. The struct `BinarizationProperties` is declared
in `gabac/constants.h`, which is missing from the sources, so the fields carry the names
of the specification: name, inclusive parameter range, signedness flag, and the two range
functions of type `int64_t(uint64_t)`. -/
structure BinarizationProperties where
  name : String
  paramMin : Nat
  paramMax : Nat
  isSigned : Bool
  minValue : Nat → Int
  maxValue : Nat → Int

/-- The table `binarizationInformation` (lines 24-109). Unsigned expressions are evaluated
modulo `2^64` and converted to `int64_t` on return; `int` division truncates. -/
def binarizationInformation : List BinarizationProperties := [
  { name := "BI", paramMin := 1, paramMax := 32, isSigned := false,
    minValue := fun _ => 0,
    maxValue := fun parameter =>
      toInt64 (((1 <<< parameter) % 18446744073709551616 + 18446744073709551616 - 1)
        % 18446744073709551616) },
  { name := "TU", paramMin := 1, paramMax := 32, isSigned := false,
    minValue := fun _ => 0,
    maxValue := fun parameter => toInt64 parameter },
  { name := "EG", paramMin := 0, paramMax := 0, isSigned := false,
    minValue := fun _ => 0,
    maxValue := fun _ => INT32_MAX },
  { name := "SEG", paramMin := 0, paramMax := 0, isSigned := true,
    minValue := fun _ => Int.tdiv INT32_MIN 2,
    maxValue := fun _ => Int.tdiv INT32_MAX 2 },
  { name := "TEG", paramMin := 0, paramMax := 255, isSigned := false,
    minValue := fun _ => 0,
    maxValue := fun param => toInt64 ((toUInt64 INT32_MAX + param) % 18446744073709551616) },
  { name := "STEG", paramMin := 0, paramMax := 255, isSigned := true,
    minValue := fun param =>
      toInt64 ((toUInt64 (Int.tdiv INT32_MIN 2) + 18446744073709551616
        - param % 18446744073709551616) % 18446744073709551616),
    maxValue := fun param =>
      toInt64 ((toUInt64 (Int.tdiv INT32_MAX 2) + param) % 18446744073709551616) } ]

/-- The value range the specification's table gives for the binarization `name` with
parameter `p`: BI `0 … 2^p − 1`, TU `0 … p`, EG `0 … INT32_MAX`, SEG
`INT32_MIN/2 … INT32_MAX/2`, TEG `0 … INT32_MAX + p`, STEG
`INT32_MIN/2 − p … INT32_MAX/2 + p`. -/
def specValueRange (name : String) (p : Nat) : Option (Int × Int) :=
  if name = "BI" then some (0, 2 ^ p - 1)
  else if name = "TU" then some (0, p)
  else if name = "EG" then some (0, 2147483647)
  else if name = "SEG" then some (-1073741824, 1073741823)
  else if name = "TEG" then some (0, 2147483647 + p)
  else if name = "STEG" then some (-1073741824 - p, 1073741823 + p)
  else none

/-- Modelled from the spec: the symbol the SEG binarization hands to EG, "EG of `|2s|` if
`s ≤ 0`, else EG of `2s−1`" (the binarization routines are missing from the sources). -/
def segToEg (s : Int) : Int := if s ≤ 0 then |2 * s| else 2 * s - 1

/-! ## `constants.cpp`: the transformation table -/

/-- The per-block routines the lambdas of `transformationInformation` call. Their
definitions are missing from the sources (only declarations such as `rle_coding.h` are
there), so the table takes them as parameters: each is a function from the blocks it is
handed through pointers to the blocks it leaves behind. `defaultBlock` is the
default-constructed `DataBlock()` with which `resize` fills new slots. -/
structure Routines where
  defaultBlock : DataBlock
  transformEqualityCoding : DataBlock → DataBlock → DataBlock × DataBlock
  inverseTransformEqualityCoding : DataBlock → DataBlock → DataBlock × DataBlock
  transformMatchCoding :
    Nat → DataBlock → DataBlock → DataBlock → DataBlock × DataBlock × DataBlock
  inverseTransformMatchCoding :
    DataBlock → DataBlock → DataBlock → DataBlock × DataBlock × DataBlock
  transformRleCoding : Nat → DataBlock → DataBlock → DataBlock × DataBlock
  inverseTransformRleCoding : Nat → DataBlock → DataBlock → DataBlock × DataBlock
  transformLutTransform :
    Nat → DataBlock → DataBlock → DataBlock → DataBlock × DataBlock × DataBlock
  inverseTransformLutTransform :
    Nat → DataBlock → DataBlock → DataBlock → DataBlock × DataBlock × DataBlock
  transformDiffCoding : DataBlock → DataBlock
  inverseTransformDiffCoding : DataBlock → DataBlock
  encode_cabac : Nat → List Nat → Nat → DataBlock → DataBlock
  decode_cabac : Nat → List Nat → Nat → Nat → DataBlock → DataBlock

/-- The call `transformedSequences->resize(n)` on a `std::vector<DataBlock>`. -/
def resize (v : List DataBlock) (n : Nat) (fill : DataBlock) : List DataBlock :=
  v.take n ++ List.replicate (n - v.length) fill

/-- The access `(*transformedSequences)[i]` (or `param[i]`) for reading; `none` is an
index outside the vector. -/
def elemAt {α : Type} : List α → Nat → Option α
  | [], _ => none
  | a :: _, 0 => some a
  | _ :: rest, i + 1 => elemAt rest i

/-- The access `(*transformedSequences)[i] = d` for writing; `none` is an index outside
the vector. -/
def assign (v : List DataBlock) (i : Nat) (d : DataBlock) : Option (List DataBlock) :=
  if i < v.length then some (v.set i d) else none

/-- An entry of `transformationInformation`: name, stream names, word sizes (0: the word
size of the input stream), forward and inverse operation. An operation maps the parameter
vector and the vector of blocks to the vector it leaves behind, `none` when it indexes a
vector out of bounds. -/
structure TransformationProperties where
  name : String
  streamNames : List String
  wordsizes : List Nat
  transform : List Nat → List DataBlock → Option (List DataBlock)
  inverseTransform : List Nat → List DataBlock → Option (List DataBlock)

/-- The forward lambda of `no_transform` (lines 118-123). -/
def noTransformForward (R : Routines) (_param : List Nat) (ts : List DataBlock) :
    Option (List DataBlock) :=
  some (resize ts 1 R.defaultBlock)

/-- The inverse lambda of `no_transform` (lines 124-129). -/
def noTransformInverse (R : Routines) (_param : List Nat) (ts : List DataBlock) :
    Option (List DataBlock) :=
  some (resize ts 1 R.defaultBlock)

/-- The forward lambda of `equality_coding` (lines 135-145). -/
def equalityCodingForward (R : Routines) (_param : List Nat) (ts : List DataBlock) :
    Option (List DataBlock) := do
  let ts := resize ts 2 R.defaultBlock
  let ts ← assign ts 1 (DataBlock.construct 0 1)
  let s0 ← elemAt ts 0
  let s1 ← elemAt ts 1
  let out := R.transformEqualityCoding s0 s1
  let ts ← assign ts 0 out.1
  assign ts 1 out.2

/-- The inverse lambda of `equality_coding` (lines 146-155). -/
def equalityCodingInverse (R : Routines) (_param : List Nat) (ts : List DataBlock) :
    Option (List DataBlock) := do
  let s0 ← elemAt ts 0
  let s1 ← elemAt ts 1
  let out := R.inverseTransformEqualityCoding s0 s1
  let ts ← assign ts 0 out.1
  let ts ← assign ts 1 out.2
  some (resize ts 1 R.defaultBlock)

/-- The forward lambda of `match_coding` (lines 161-175); the window is
`static_cast<uint32_t>(param[0])`. The `assert` on `param[0]` is not recorded. -/
def matchCodingForward (R : Routines) (param : List Nat) (ts : List DataBlock) :
    Option (List DataBlock) := do
  let ts := resize ts 3 R.defaultBlock
  let p0 ← elemAt param 0
  let ts ← assign ts 1 (DataBlock.construct 0 4)
  let ts ← assign ts 2 (DataBlock.construct 0 4)
  let s0 ← elemAt ts 0
  let s1 ← elemAt ts 1
  let s2 ← elemAt ts 2
  let out := R.transformMatchCoding (p0 % 4294967296) s0 s1 s2
  let ts ← assign ts 0 out.1
  let ts ← assign ts 1 out.2.1
  assign ts 2 out.2.2

/-- The inverse lambda of `match_coding` (lines 176-186). -/
def matchCodingInverse (R : Routines) (_param : List Nat) (ts : List DataBlock) :
    Option (List DataBlock) := do
  let s0 ← elemAt ts 0
  let s1 ← elemAt ts 1
  let s2 ← elemAt ts 2
  let out := R.inverseTransformMatchCoding s0 s1 s2
  let ts ← assign ts 0 out.1
  let ts ← assign ts 1 out.2.1
  let ts ← assign ts 2 out.2.2
  some (resize ts 1 R.defaultBlock)

/-- The forward lambda of `rle_coding` (lines 192-203). -/
def rleCodingForward (R : Routines) (param : List Nat) (ts : List DataBlock) :
    Option (List DataBlock) := do
  let ts := resize ts 2 R.defaultBlock
  let ts ← assign ts 1 (DataBlock.construct 0 1)
  let p0 ← elemAt param 0
  let s0 ← elemAt ts 0
  let s1 ← elemAt ts 1
  let out := R.transformRleCoding p0 s0 s1
  let ts ← assign ts 0 out.1
  assign ts 1 out.2

/-- The inverse lambda of `rle_coding` (lines 204-214). -/
def rleCodingInverse (R : Routines) (param : List Nat) (ts : List DataBlock) :
    Option (List DataBlock) := do
  let p0 ← elemAt param 0
  let s0 ← elemAt ts 0
  let s1 ← elemAt ts 1
  let out := R.inverseTransformRleCoding p0 s0 s1
  let ts ← assign ts 0 out.1
  let ts ← assign ts 1 out.2
  some (resize ts 1 R.defaultBlock)

/-- The forward lambda of `lut_coding` (lines 220-233); the order is
`static_cast<unsigned int>(order[0])`. -/
def lutCodingForward (R : Routines) (order : List Nat) (ts : List DataBlock) :
    Option (List DataBlock) := do
  let ts := resize ts 3 R.defaultBlock
  let w1 ← elemAt ts 0
  let ts ← assign ts 1 (DataBlock.construct 0 w1.getWordSize)
  let w2 ← elemAt ts 0
  let ts ← assign ts 2 (DataBlock.construct 0 w2.getWordSize)
  let o0 ← elemAt order 0
  let s0 ← elemAt ts 0
  let s1 ← elemAt ts 1
  let s2 ← elemAt ts 2
  let out := R.transformLutTransform (o0 % 4294967296) s0 s1 s2
  let ts ← assign ts 0 out.1
  let ts ← assign ts 1 out.2.1
  assign ts 2 out.2.2

/-- The inverse lambda of `lut_coding` (lines 234-245). -/
def lutCodingInverse (R : Routines) (order : List Nat) (ts : List DataBlock) :
    Option (List DataBlock) := do
  let o0 ← elemAt order 0
  let s0 ← elemAt ts 0
  let s1 ← elemAt ts 1
  let s2 ← elemAt ts 2
  let out := R.inverseTransformLutTransform (o0 % 4294967296) s0 s1 s2
  let ts ← assign ts 0 out.1
  let ts ← assign ts 1 out.2.1
  let ts ← assign ts 2 out.2.2
  some (resize ts 1 R.defaultBlock)

/-- The forward lambda of `diff_coding` (lines 251-257). -/
def diffCodingForward (R : Routines) (_param : List Nat) (ts : List DataBlock) :
    Option (List DataBlock) := do
  let ts := resize ts 1 R.defaultBlock
  let s0 ← elemAt ts 0
  assign ts 0 (R.transformDiffCoding s0)

/-- The inverse lambda of `diff_coding` (lines 258-264). -/
def diffCodingInverse (R : Routines) (_param : List Nat) (ts : List DataBlock) :
    Option (List DataBlock) := do
  let ts := resize ts 1 R.defaultBlock
  let s0 ← elemAt ts 0
  assign ts 0 (R.inverseTransformDiffCoding s0)

/-- The forward lambda of `cabac` (lines 270-276); the binarization parameter is
`static_cast<unsigned>(param[1])`. -/
def cabacForward (R : Routines) (param : List Nat) (ts : List DataBlock) :
    Option (List DataBlock) := do
  let ts := resize ts 1 R.defaultBlock
  let p0 ← elemAt param 0
  let p1 ← elemAt param 1
  let p2 ← elemAt param 2
  let s0 ← elemAt ts 0
  assign ts 0 (R.encode_cabac p0 [p1 % 4294967296] p2 s0)

/-- The inverse lambda of `cabac` (lines 277-283). -/
def cabacInverse (R : Routines) (param : List Nat) (ts : List DataBlock) :
    Option (List DataBlock) := do
  let ts := resize ts 1 R.defaultBlock
  let p0 ← elemAt param 0
  let p1 ← elemAt param 1
  let p2 ← elemAt param 2
  let p3 ← elemAt param 3
  let s0 ← elemAt ts 0
  assign ts 0 (R.decode_cabac p0 [p1 % 4294967296] p2 p3 s0)

/-- The table `transformationInformation` (lines 113-285). -/
def transformationInformation (R : Routines) : List TransformationProperties := [
  { name := "no_transform", streamNames := ["out"], wordsizes := [0],
    transform := noTransformForward R, inverseTransform := noTransformInverse R },
  { name := "equality_coding", streamNames := ["raw_symbols", "eq_flags"],
    wordsizes := [0, 1],
    transform := equalityCodingForward R, inverseTransform := equalityCodingInverse R },
  { name := "match_coding", streamNames := ["raw_values", "pointers", "lengths"],
    wordsizes := [0, 4, 4],
    transform := matchCodingForward R, inverseTransform := matchCodingInverse R },
  { name := "rle_coding", streamNames := ["raw_values", "lengths"], wordsizes := [0, 1],
    transform := rleCodingForward R, inverseTransform := rleCodingInverse R },
  { name := "lut_coding", streamNames := ["sequence", "lut0", "lut1"],
    wordsizes := [0, 0, 0],
    transform := lutCodingForward R, inverseTransform := lutCodingInverse R },
  { name := "diff_coding", streamNames := ["sequence"], wordsizes := [0],
    transform := diffCodingForward R, inverseTransform := diffCodingInverse R },
  { name := "cabac", streamNames := ["sequence"], wordsizes := [0],
    transform := cabacForward R, inverseTransform := cabacInverse R } ]

/-- The number of entries of the parameter vector the forward lambda of entry `i` of
`transformationInformation` reads (`param[0]` for match, rle and lut coding,
`param[0..2]` for cabac). -/
def forwardParams (i : Nat) : Nat :=
  if i = 2 ∨ i = 3 ∨ i = 4 then 1 else if i = 6 then 3 else 0

/-- The number of entries of the parameter vector the inverse lambda of entry `i` of
`transformationInformation` reads (`param[0]` for rle and lut coding, `param[0..3]` for
cabac). -/
def inverseParams (i : Nat) : Nat :=
  if i = 3 ∨ i = 4 then 1 else if i = 6 then 4 else 0

/-- Routines that hand every block back as they received it; they stand in for the missing
routines where the table is evaluated on concrete vectors. -/
def idRoutines : Routines :=
  { defaultBlock := DataBlock.construct 0 1,
    transformEqualityCoding := fun a b => (a, b),
    inverseTransformEqualityCoding := fun a b => (a, b),
    transformMatchCoding := fun _ a b c => (a, b, c),
    inverseTransformMatchCoding := fun a b c => (a, b, c),
    transformRleCoding := fun _ a b => (a, b),
    inverseTransformRleCoding := fun _ a b => (a, b),
    transformLutTransform := fun _ a b c => (a, b, c),
    inverseTransformLutTransform := fun _ a b c => (a, b, c),
    transformDiffCoding := fun a => a,
    inverseTransformDiffCoding := fun a => a,
    encode_cabac := fun _ _ _ a => a,
    decode_cabac := fun _ _ _ _ a => a }

/-- A stream over the bytes `A5 3C FF` after its first three bits were read. -/
def streamAfterThreeBits : BitInputStream :=
  { m_bitstream := { wordSize := 1, words := [165, 60, 255] },
    m_reader := { block := [165, 60, 255], pos := 1 },
    m_heldBits := 165, m_numHeldBits := 5 }

/-! ## Sequences of reads -/

/-- The held-bits register is the byte pulled last from the stepper (0 before the first
byte is pulled). -/
def HeldByte (s : BitInputStream) : Prop :=
  (s.m_reader.pos = 0 → s.m_heldBits = 0) ∧
  (0 < s.m_reader.pos → s.m_heldBits = byteAt s.m_reader.block (s.m_reader.pos - 1))

/-- A sequence of calls `read(k)` for the `k` of the list, all of which return: the values
read and the stream afterwards; `none` when one of the calls fails. -/
def readAll (s : BitInputStream) : List Nat → Option (List Nat × BitInputStream)
  | [] => some ([], s)
  | k :: ks =>
    match s.read k with
    | none => none
    | some r =>
      match readAll r.stream ks with
      | none => none
      | some (vals, t) => some (r.bits :: vals, t)

/-- What a caller observes of a sequence of calls `read(k)`: the values returned, up to
and including the first call that fails (recorded as `none`). -/
def readTrace (s : BitInputStream) : List Nat → List (Option Nat)
  | [] => []
  | k :: ks =>
    match s.read k with
    | none => [none]
    | some r => some r.bits :: readTrace r.stream ks

/-- The relation `BitsRead s n`: the state `s` is reached from construction by successful
calls of `read` (at most 32 bits each), `readByte` and `reset`, and `n` bits were read
since construction or the last `reset`. -/
inductive BitsRead : BitInputStream → Nat → Prop
  | new (d : DataBlock) : BitsRead (BitInputStream.new d) 0
  | read (s : BitInputStream) (n k : Nat) (r : ReadResult) :
      BitsRead s n → k ≤ 32 → s.read k = some r → BitsRead r.stream (n + k)
  | readByte (s : BitInputStream) (n : Nat) (r : ReadResult) (a : Bool) :
      BitsRead s n → s.readByte = some (r, a) → BitsRead r.stream (n + 8)
  | reset (s : BitInputStream) (n : Nat) : BitsRead s n → BitsRead s.reset 0

/-- The block a forward lambda creates for an auxiliary stream whose declared word size is
`w`: empty, of word size `w`, or of the word size of the input block `D` when `w` is 0. -/
def auxBlock (D : DataBlock) (w : Nat) : DataBlock :=
  DataBlock.construct 0 (if w = 0 then D.getWordSize else w)

/-! # Theorems -/

/-! ## Arithmetic of bit fields -/

set_option maxRecDepth 100000 in
theorem notFFShl_mask_aux : ∀ n < 8, ∀ x < 256, x &&& notFFShl n = x % 2 ^ n := by
  decide

theorem notFFShl_mask (x n : Nat) (hx : x < 256) (hn : n ≤ 7) :
    x &&& notFFShl n = x % 2 ^ n :=
  notFFShl_mask_aux n (by omega) x hx

theorem mod_two_step (M k : Nat) : M % 2 ^ (k + 1) = 2 * ((M / 2) % 2 ^ k) + M % 2 := by
  rw [pow_succ, Nat.mul_comm (2 ^ k) 2, Nat.mod_mul]
  omega

theorem byteAt_lt (words : List Nat) (j : Nat) : byteAt words j < 256 := by
  unfold byteAt
  omega

theorem bitField_lt (words : List Nat) (pos k : Nat) : bitField words pos k < 2 ^ k := by
  induction k with
  | zero => simp [bitField]
  | succ k ih =>
    have hb : bitAt words (pos + k) < 2 := by
      unfold bitAt
      omega
    simp only [bitField, pow_succ]
    omega

/-- Bit fields compose: `a` bits followed by `b` bits are the field of `a + b` bits. -/
theorem bitField_add (words : List Nat) (pos a b : Nat) :
    bitField words pos (a + b) = bitField words pos a * 2 ^ b + bitField words (pos + a) b := by
  induction b with
  | zero => simp [bitField]
  | succ b ih =>
    rw [← Nat.add_assoc]
    simp only [bitField, ih, pow_succ, Nat.add_assoc]
    ring

theorem beWord_lt (words : List Nat) (pos m : Nat) : beWord words pos m < 2 ^ (8 * m) := by
  induction m with
  | zero => simp [beWord]
  | succ m ih =>
    have hb := byteAt_lt words (pos + m)
    have h2 : 2 ^ (8 * (m + 1)) = 2 ^ (8 * m) * 256 := by
      rw [Nat.mul_succ, pow_add]
      norm_num
    simp only [beWord, h2]
    omega

/-- Bit `i` of the bytes from `pos` on is bit `i` of their big-endian value. -/
theorem bitAt_beWord (words : List Nat) (pos : Nat) :
    ∀ m i, i < 8 * m →
      bitAt words (8 * pos + i) = (beWord words pos m / 2 ^ (8 * m - 1 - i)) % 2 := by
  intro m
  induction m with
  | zero => intro i hi; omega
  | succ m ih =>
    intro i hi
    by_cases hlt : i < 8 * m
    · rw [ih i hlt]
      have he : 8 * (m + 1) - 1 - i = 8 + (8 * m - 1 - i) := by omega
      have hb := byteAt_lt words (pos + m)
      rw [he, pow_add, ← Nat.div_div_eq_div_mul]
      simp only [beWord]
      have : (beWord words pos m * 256 + byteAt words (pos + m)) / 2 ^ 8 = beWord words pos m := by
        norm_num
        omega
      rw [this]
    · have h1 : (8 * pos + i) / 8 = pos + m := by omega
      have h2 : 7 - (8 * pos + i) % 8 = 8 * (m + 1) - 1 - i := by omega
      have hb := byteAt_lt words (pos + m)
      unfold bitAt
      rw [h1, h2]
      simp only [beWord]
      generalize beWord words pos m = W
      generalize byteAt words (pos + m) = b at hb ⊢
      have he : 8 * (m + 1) - 1 - i < 8 := by omega
      generalize 8 * (m + 1) - 1 - i = e at he ⊢
      interval_cases e <;> omega

/-- The first `j` bits from a byte boundary are the top `j` bits of the big-endian value of
the bytes that hold them. -/
theorem bitField_beWord (words : List Nat) (pos m : Nat) :
    ∀ j, j ≤ 8 * m → bitField words (8 * pos) j = beWord words pos m / 2 ^ (8 * m - j) := by
  intro j
  induction j with
  | zero =>
    intro _
    have := beWord_lt words pos m
    simp only [bitField, Nat.sub_zero]
    exact (Nat.div_eq_of_lt this).symm
  | succ j ih =>
    intro hj
    have h1 := bitAt_beWord words pos m j (by omega)
    have he : 8 * m - j = (8 * m - (j + 1)) + 1 := by omega
    have he2 : 8 * m - 1 - j = 8 * m - (j + 1) := by omega
    simp only [bitField]
    rw [ih (by omega), h1, he, he2, pow_succ, ← Nat.div_div_eq_div_mul]
    omega

/-! ## What `readIn` and the byte-loading jump compute -/

theorem readIn_eq (r : BlockStepper) :
    readIn r = if r.pos < r.block.length
      then some (byteAt r.block r.pos, { r with pos := r.pos + 1 }) else none := by
  unfold readIn BlockStepper.isValid BlockStepper.get BlockStepper.inc byteAt
  by_cases h : r.pos < r.block.length <;> simp [h]

theorem loadStep_run (entry label shift w : Nat) (blk : List Nat) (p : Nat)
    (h : label ≤ entry) :
    loadStep entry label shift (w, { block := blk, pos := p }) =
      if p < blk.length
      then some (w ||| ((byteAt blk p <<< shift) % 4294967296), { block := blk, pos := p + 1 })
      else none := by
  unfold loadStep
  rw [if_pos h, readIn_eq]
  by_cases hp : p < blk.length <;> simp [hp]

theorem loadStep_skip (entry label shift : Nat) (st : Nat × BlockStepper)
    (h : ¬ label ≤ entry) : loadStep entry label shift st = some st := by
  unfold loadStep
  rw [if_neg h]

theorem or_byte (W b s : Nat) (hb : b < 256) (hs : s ≤ 24) (hW : W % 2 ^ (s + 8) = 0) :
    W ||| ((b <<< s) % 4294967296) = W + b * 2 ^ s := by
  have h1 : b * 2 ^ s < 2 ^ (s + 8) := by
    rw [pow_add, Nat.mul_comm (2 ^ s)]
    exact Nat.mul_lt_mul_of_pos_right (by simpa using hb) (Nat.pow_pos (by decide))
  have h2 : 2 ^ (s + 8) ≤ 4294967296 := by
    have : (4294967296 : Nat) = 2 ^ 32 := by norm_num
    rw [this]
    exact Nat.pow_le_pow_right (by decide) (by omega)
  rw [Nat.shiftLeft_eq, Nat.mod_eq_of_lt (by omega)]
  obtain ⟨q, hq⟩ := Nat.dvd_of_mod_eq_zero hW
  rw [hq]
  exact (Nat.mul_add_lt_is_or h1 q).symm

/-- The computed jump loads the next `n` bytes big-endian, or raises the error when fewer
than `n` bytes are left. -/
theorem loadWord_eq (blk : List Nat) (p n : Nat) (h1 : 1 ≤ n) (h4 : n ≤ 4) :
    loadWord { block := blk, pos := p } n =
      if p + n ≤ blk.length
      then some (beWord blk p n, { block := blk, pos := p + n })
      else none := by
  have b0 := byteAt_lt blk p
  have b1 := byteAt_lt blk (p + 1)
  have b2 := byteAt_lt blk (p + 2)
  have b3 := byteAt_lt blk (p + 3)
  have e0 : byteAt blk p <<< 0 % 4294967296 = byteAt blk p := by
    simp only [Nat.shiftLeft_zero]; omega
  interval_cases n
  · simp only [loadWord]
    rw [loadStep_skip _ _ _ _ (by decide)]
    simp only [Option.some_bind]
    rw [loadStep_skip _ _ _ _ (by decide)]
    simp only [Option.some_bind]
    rw [loadStep_skip _ _ _ _ (by decide)]
    simp only [Option.some_bind]
    rw [loadStep_run _ _ _ _ _ _ (by decide)]
    by_cases hp : p < blk.length
    · rw [if_pos hp, if_pos (by omega), or_byte _ _ _ b0 (by decide) (by simp)]
      simp [beWord]
    · simp only [if_neg hp, if_neg (show ¬ p + 1 ≤ blk.length by omega), Option.none_bind]
  · simp only [loadWord]
    rw [loadStep_skip _ _ _ _ (by decide)]
    simp only [Option.some_bind]
    rw [loadStep_skip _ _ _ _ (by decide)]
    simp only [Option.some_bind]
    rw [loadStep_run _ _ _ _ _ _ (by decide)]
    by_cases hp : p < blk.length
    · rw [if_pos hp]
      simp only [Option.some_bind]
      rw [loadStep_run _ _ _ _ _ _ (by decide)]
      by_cases hq : p + 1 < blk.length
      · rw [if_pos hq, if_pos (by omega), or_byte _ _ _ b0 (by decide) (by simp),
          or_byte _ _ _ b1 (by decide) (by omega)]
        simp [beWord, Nat.add_assoc]
      · simp only [if_neg hq, if_neg (show ¬ p + 2 ≤ blk.length by omega), Option.none_bind]
    · simp only [if_neg hp, if_neg (show ¬ p + 2 ≤ blk.length by omega), Option.none_bind]
  · simp only [loadWord]
    rw [loadStep_skip _ _ _ _ (by decide)]
    simp only [Option.some_bind]
    rw [loadStep_run _ _ _ _ _ _ (by decide)]
    by_cases hp : p < blk.length
    · rw [if_pos hp]
      simp only [Option.some_bind]
      rw [loadStep_run _ _ _ _ _ _ (by decide)]
      by_cases hq : p + 1 < blk.length
      · rw [if_pos hq]
        simp only [Option.some_bind]
        rw [loadStep_run _ _ _ _ _ _ (by decide)]
        by_cases hr : p + 1 + 1 < blk.length
        · rw [if_pos hr, if_pos (by omega), or_byte _ _ _ b0 (by decide) (by simp),
            or_byte _ _ _ b1 (by decide) (by omega),
            or_byte _ _ _ (byteAt_lt blk (p + 1 + 1)) (by decide) (by omega)]
          simp [beWord, Nat.add_assoc]
          omega
        · simp only [if_neg hr, if_neg (show ¬ p + 3 ≤ blk.length by omega), Option.none_bind]
      · simp only [if_neg hq, if_neg (show ¬ p + 3 ≤ blk.length by omega), Option.none_bind]
    · simp only [if_neg hp, if_neg (show ¬ p + 3 ≤ blk.length by omega), Option.none_bind]
  · simp only [loadWord]
    rw [loadStep_run _ _ _ _ _ _ (by decide)]
    by_cases hp : p < blk.length
    · rw [if_pos hp]
      simp only [Option.some_bind]
      rw [loadStep_run _ _ _ _ _ _ (by decide)]
      by_cases hq : p + 1 < blk.length
      · rw [if_pos hq]
        simp only [Option.some_bind]
        rw [loadStep_run _ _ _ _ _ _ (by decide)]
        by_cases hr : p + 1 + 1 < blk.length
        · rw [if_pos hr]
          simp only [Option.some_bind]
          rw [loadStep_run _ _ _ _ _ _ (by decide)]
          by_cases ht : p + 1 + 1 + 1 < blk.length
          · rw [if_pos ht, if_pos (by omega), or_byte _ _ _ b0 (by decide) (by simp),
              or_byte _ _ _ b1 (by decide) (by omega),
              or_byte _ _ _ (byteAt_lt blk (p + 1 + 1)) (by decide) (by omega),
              or_byte _ _ _ (byteAt_lt blk (p + 1 + 1 + 1)) (by decide) (by omega)]
            simp [beWord, Nat.add_assoc]
            omega
          · simp only [if_neg ht, if_neg (show ¬ p + 4 ≤ blk.length by omega), Option.none_bind]
        · simp only [if_neg hr, if_neg (show ¬ p + 4 ≤ blk.length by omega), Option.none_bind]
      · simp only [if_neg hq, if_neg (show ¬ p + 4 ≤ blk.length by omega), Option.none_bind]
    · simp only [if_neg hp, if_neg (show ¬ p + 4 ≤ blk.length by omega), Option.none_bind]

/-! ## One call of `read` -/

theorem read_of_le (s : BitInputStream) (k : Nat) (h : k ≤ s.m_numHeldBits) :
    s.read k = some
      { bits := (s.m_heldBits >>> (s.m_numHeldBits - k)) &&& notFFShl k,
        stream := { s with m_numHeldBits := s.m_numHeldBits - k },
        assertNumBits := decide (k ≤ 32),
        assertAlignedWord := true } := by
  simp only [BitInputStream.read, if_pos h]

theorem read_of_gt (s : BitInputStream) (k : Nat) (h : ¬ k ≤ s.m_numHeldBits) :
    s.read k =
      match loadWord s.m_reader (((k - s.m_numHeldBits - 1) >>> 3) + 1) with
      | none => none
      | some (alignedWord, reader) =>
        some
          { bits := ((s.m_heldBits &&& notFFShl s.m_numHeldBits) <<< (k - s.m_numHeldBits))
                % 4294967296 |||
              (alignedWord >>>
                (((32 + 4294967296 - (k - s.m_numHeldBits)) % 4294967296) % 8)),
            stream := { s with
              m_reader := reader,
              m_numHeldBits := ((32 + 4294967296 - (k - s.m_numHeldBits)) % 4294967296) % 8,
              m_heldBits := alignedWord % 256 },
            assertNumBits := decide (k ≤ 32),
            assertAlignedWord := decide (alignedWord ≤ 255) } := by
  simp only [BitInputStream.read, if_neg h]

/-- From any offset inside the stream a field is the low part of the field that starts at
the byte boundary before it. -/
theorem bitField_offset (words : List Nat) (q a j : Nat) :
    bitField words (8 * q + a) j = bitField words (8 * q) (a + j) % 2 ^ j := by
  rw [bitField_add, Nat.add_comm (bitField words (8 * q) a * 2 ^ j),
    Nat.add_mul_mod_self_right, Nat.mod_eq_of_lt (bitField_lt _ _ _)]

theorem beWord_one (words : List Nat) (q : Nat) : beWord words q 1 = byteAt words q := by
  simp [beWord]

theorem beWord_mod (words : List Nat) (q m : Nat) (hm : 1 ≤ m) :
    beWord words q m % 256 = byteAt words (q + m - 1) := by
  obtain ⟨m, rfl⟩ : ∃ m0, m = m0 + 1 := ⟨m - 1, by omega⟩
  have := byteAt_lt words (q + m)
  simp only [beWord, Nat.add_sub_cancel, ← Nat.add_assoc]
  omega

/-- The bits still held are the low bits of the held-bits register. -/
theorem held_field (s : BitInputStream) (hinv : StreamInv s) (j : Nat)
    (hj : j ≤ s.m_numHeldBits) :
    bitField s.m_reader.block (bitPos s) j
      = (s.m_heldBits / 2 ^ (s.m_numHeldBits - j)) % 2 ^ j := by
  obtain ⟨_, _, h7, _, hheld⟩ := hinv
  by_cases h0 : s.m_numHeldBits = 0
  · have : j = 0 := by omega
    subst this
    simp [bitField, Nat.mod_one]
  · obtain ⟨hpos, hb⟩ := hheld (by omega)
    have hP : bitPos s = 8 * (s.m_reader.pos - 1) + (8 - s.m_numHeldBits) := by
      unfold bitPos
      omega
    rw [hP, bitField_offset, bitField_beWord _ _ 1 _ (by omega), beWord_one, ← hb]
    congr 2
    congr 1
    omega

theorem numNextHeldBits_eq (nb : Nat) (h1 : 1 ≤ nb) (h32 : nb ≤ 32) :
    ((32 + 4294967296 - nb) % 4294967296) % 8 = 8 * (((nb - 1) >>> 3) + 1) - nb := by
  rw [Nat.shiftRight_eq_div_pow]
  omega

/-- One call of `read` from a state that satisfies the invariant, with enough unread bits:
the value, the new position and the invariant afterwards. -/
theorem read_step (s : BitInputStream) (k : Nat) (hinv : StreamInv s) (hk : k ≤ 32)
    (hrem : k ≤ unreadBits s) :
    ∃ r, s.read k = some r ∧
      r.bits = bitField s.m_reader.block (bitPos s) k ∧
      bitPos r.stream = bitPos s + k ∧
      unreadBits r.stream + k = unreadBits s ∧
      r.stream.m_bitstream = s.m_bitstream ∧
      r.stream.m_reader.block = s.m_reader.block ∧
      StreamInv r.stream ∧
      r.assertNumBits = true ∧
      (k ≤ s.m_numHeldBits + 8 → r.assertAlignedWord = true) := by
  have hfield := held_field s hinv
  obtain ⟨bs, ⟨blk, p⟩, hb, h⟩ := s
  obtain ⟨i1, i2, i3, i4, i5⟩ := hinv
  simp only at i1 i2 i3 i4 i5 hfield
  simp only [unreadBits, unreadBytes] at hrem
  by_cases hle : k ≤ h
  · refine ⟨_, read_of_le _ k hle, ?_, ?_, ?_, rfl, rfl, ?_, ?_, fun _ => rfl⟩
    · simp only
      rw [hfield k hle, Nat.shiftRight_eq_div_pow]
      exact notFFShl_mask _ _ (lt_of_le_of_lt (Nat.div_le_self _ _) i4) (by omega)
    · simp only [bitPos]
      have := i5
      omega
    · simp only [unreadBits, unreadBytes]
      omega
    · refine ⟨i1, i2, ?_, i4, ?_⟩
      · simp only
        omega
      · simp only
        intro h0
        exact i5 (by omega)
    · simp [hk]
  · have hn1 : 1 ≤ k - h := by omega
    have hn32 : k - h ≤ 32 := by omega
    have hnum := numNextHeldBits_eq (k - h) hn1 hn32
    have hsh : (k - h - 1) >>> 3 = (k - h - 1) / 8 := by
      rw [Nat.shiftRight_eq_div_pow]
    have hload := loadWord_eq blk p (((k - h - 1) >>> 3) + 1) (by omega) (by omega)
    rw [if_pos (by omega)] at hload
    have hread := read_of_gt ⟨bs, ⟨blk, p⟩, hb, h⟩ k hle
    simp only [hload, hnum] at hread
    refine ⟨_, hread, ?_, ?_, ?_, rfl, rfl, ?_, ?_, ?_⟩
    · simp only
      have hsplit : k = h + (k - h) := by omega
      have hP : bitPos ⟨bs, ⟨blk, p⟩, hb, h⟩ + h = 8 * p := by
        simp only [bitPos]
        have := i5
        omega
      have hW := beWord_lt blk p (((k - h - 1) >>> 3) + 1)
      have hfl := bitField_beWord blk p (((k - h - 1) >>> 3) + 1) (k - h) (by omega)
      have hh := hfield h (le_refl _)
      rw [Nat.sub_self, pow_zero, Nat.div_one] at hh
      have hc : beWord blk p (((k - h - 1) >>> 3) + 1)
            / 2 ^ (8 * (((k - h - 1) >>> 3) + 1) - (k - h)) < 2 ^ (k - h) := by
        rw [← hfl]
        exact bitField_lt _ _ _
      have hv : hb % 2 ^ h * 2 ^ (k - h) < 4294967296 := by
        have h1 : hb % 2 ^ h < 2 ^ h := Nat.mod_lt _ (Nat.pow_pos (by decide))
        have h2 : hb % 2 ^ h * 2 ^ (k - h) < 2 ^ h * 2 ^ (k - h) :=
          Nat.mul_lt_mul_of_pos_right h1 (Nat.pow_pos (by decide))
        have h3 : 2 ^ h * 2 ^ (k - h) = 2 ^ k := by
          rw [← pow_add]
          congr 1
          omega
        have h4 : 2 ^ k ≤ 2 ^ 32 := Nat.pow_le_pow_right (by decide) hk
        have h5 : (2 : Nat) ^ 32 = 4294967296 := by norm_num
        omega
      rw [notFFShl_mask _ _ i4 i3, Nat.shiftLeft_eq, Nat.mod_eq_of_lt hv,
        Nat.shiftRight_eq_div_pow, Nat.mul_comm, ← Nat.mul_add_lt_is_or hc]
      conv_rhs => rw [hsplit, bitField_add, hP, hfl, hh]
      rw [Nat.mul_comm]
    · simp only [bitPos]
      have := i5
      omega
    · simp only [unreadBits, unreadBytes]
      omega
    · refine ⟨i1, ?_, ?_, ?_, ?_⟩
      · simp only
        omega
      · simp only
        omega
      · simp only
        omega
      · simp only
        intro _
        refine ⟨by omega, ?_⟩
        rw [beWord_mod _ _ _ (by omega)]
    · simp [hk]
    · simp only
      intro h8
      have hn : ((k - h - 1) >>> 3) + 1 = 1 := by omega
      rw [hn, beWord_one]
      have := byteAt_lt blk p
      simp only [decide_eq_true_eq]
      omega

/-- A call of `read` raises the out-of-bounds error exactly when too few bits are left. -/
theorem read_none_iff (s : BitInputStream) (k : Nat) (hinv : StreamInv s) (hk : k ≤ 32) :
    s.read k = none ↔ unreadBits s < k := by
  constructor
  · intro hnone
    by_contra hge
    obtain ⟨r, hr, _⟩ := read_step s k hinv hk (by omega)
    rw [hnone] at hr
    exact Option.noConfusion hr
  · intro hlt
    obtain ⟨bs, ⟨blk, p⟩, hb, h⟩ := s
    obtain ⟨_, i2, i3, _, _⟩ := hinv
    simp only at i2 i3
    simp only [unreadBits, unreadBytes] at hlt
    have hle : ¬ k ≤ h := by omega
    have hsh : (k - h - 1) >>> 3 = (k - h - 1) / 8 := by
      rw [Nat.shiftRight_eq_div_pow]
    have hload := loadWord_eq blk p (((k - h - 1) >>> 3) + 1) (by omega) (by omega)
    rw [if_neg (by omega)] at hload
    have hread := read_of_gt ⟨bs, ⟨blk, p⟩, hb, h⟩ k hle
    simp only [hload] at hread
    exact hread

theorem streamInv_new (d : DataBlock) : StreamInv (BitInputStream.new d) := by
  refine ⟨rfl, Nat.zero_le _, ?_, ?_, ?_⟩
  · show (0 : Nat) ≤ 7
    decide
  · show (0 : Nat) < 256
    decide
  · intro h0
    exact absurd h0 (Nat.lt_irrefl 0)

theorem streamInv_reset (s : BitInputStream) : StreamInv s.reset := by
  refine ⟨rfl, Nat.zero_le _, ?_, ?_, ?_⟩
  · show (0 : Nat) ≤ 7
    decide
  · show (0 : Nat) < 256
    decide
  · intro h0
    exact absurd h0 (Nat.lt_irrefl 0)

theorem readByte_some (s : BitInputStream) (r : ReadResult) (a : Bool)
    (h : s.readByte = some (r, a)) :
    ∃ r0, s.read 8 = some r0 ∧ r.stream = r0.stream ∧ r.bits = r0.bits % 256 ∧
      a = decide (r0.bits ≤ 255) ∧ r.assertAlignedWord = r0.assertAlignedWord ∧
      r.assertNumBits = r0.assertNumBits := by
  unfold BitInputStream.readByte at h
  cases hr : s.read 8 with
  | none => rw [hr] at h; exact Option.noConfusion h
  | some r0 =>
    rw [hr] at h
    simp only [Option.some.injEq, Prod.mk.injEq] at h
    obtain ⟨h1, h2⟩ := h
    subst h1
    exact ⟨r0, rfl, rfl, rfl, h2.symm, rfl, rfl⟩

/-- Every reachable state satisfies the stream invariant. -/
theorem reachable_inv (s : BitInputStream) (hs : Reachable s) : StreamInv s := by
  induction hs with
  | new d => exact streamInv_new d
  | read s k r _ hk hr ih =>
    have hrem : k ≤ unreadBits s := by
      by_contra hlt
      have := (read_none_iff s k ih hk).mpr (by omega)
      rw [this] at hr
      exact Option.noConfusion hr
    obtain ⟨r1, hr1, _, _, _, _, _, hinv, _⟩ := read_step s k ih hk hrem
    rw [hr] at hr1
    cases hr1
    exact hinv
  | readByte s r a _ hr ih =>
    obtain ⟨r0, hr0, hst, _⟩ := readByte_some s r a hr
    have hrem : 8 ≤ unreadBits s := by
      by_contra hlt
      have := (read_none_iff s 8 ih (by decide)).mpr (by omega)
      rw [this] at hr0
      exact Option.noConfusion hr0
    obtain ⟨r1, hr1, _, _, _, _, _, hinv, _⟩ := read_step s 8 ih (by decide) hrem
    rw [hr0] at hr1
    cases hr1
    rw [hst]
    exact hinv
  | reset s _ _ => exact streamInv_reset s

/-! ## The claims on `BitInputStream::read` -/

/-- In a reachable state the bits before the read position and the unread bits make up
the whole byte sequence. -/
theorem bitPos_add_unreadBits (s : BitInputStream) (hs : Reachable s) :
    bitPos s + unreadBits s = 8 * s.m_bitstream.words.length := by
  obtain ⟨i1, i2, i3, _, i5⟩ := reachable_inv s hs
  rw [← i1]
  simp only [bitPos, unreadBits, unreadBytes]
  omega

/-- What `read` computes, and so what it returns in a build without assertions (`NDEBUG`)
or when the assertion of line 95 holds: from every reachable state, for `k` in `[0,32]`
and at least `k` unread bits, the value is the unsigned integer whose `k`-bit binary
representation, most significant bit first, is the next `k` unread bits of the byte
sequence, and the read position advances by exactly `k` bits. Nothing is said here on the
outcome of the assertions. -/
theorem read_computes_next_bits (s : BitInputStream) (k : Nat) (hs : Reachable s)
    (hk : k ≤ 32) (hrem : k ≤ unreadBits s) :
    bitPos s + unreadBits s = 8 * s.m_bitstream.words.length ∧
    ∃ r, s.read k = some r ∧
      r.bits = bitField s.m_bitstream.words (bitPos s) k ∧
      r.bits < 2 ^ k ∧
      bitPos r.stream = bitPos s + k ∧
      unreadBits r.stream + k = unreadBits s ∧
      r.stream.m_bitstream = s.m_bitstream := by
  have hinv := reachable_inv s hs
  obtain ⟨r, hr, hbits, hpos, hun, hblk, _, _, _, _⟩ := read_step s k hinv hk hrem
  refine ⟨bitPos_add_unreadBits s hs, r, hr, ?_, ?_, hpos, hun, hblk⟩
  · rw [hbits, hinv.1]
  · rw [hbits]
    exact bitField_lt _ _ _

/-- C2: from every reachable state and for every `k` in `[0,32]`, `read(k)` fails with the
out-of-bounds error of `readIn` if and only if fewer than `k` unread bits remain, that is
`heldBitCount + 8 * unreadBytes < k`; a read with `k ≤ heldBitCount` never fails. -/
theorem read_fails_iff_too_few_bits (s : BitInputStream) (k : Nat) (hs : Reachable s)
    (hk : k ≤ 32) :
    (s.read k = none ↔ s.m_numHeldBits + 8 * unreadBytes s < k) ∧
    (k ≤ s.m_numHeldBits → s.read k ≠ none) := by
  have hiff := read_none_iff s k (reachable_inv s hs) hk
  refine ⟨hiff, ?_⟩
  intro hle hnone
  have := hiff.mp hnone
  simp only [unreadBits] at this
  omega

/-- C2, at a concrete state: with 5 held bits and two unread bytes (21 unread bits),
`read(22)` fails, and 21 is not below 21 so `read(21)` does not. -/
theorem read_fails_iff_too_few_bits_witness :
    Reachable streamAfterThreeBits ∧ 22 ≤ 32 ∧
    (streamAfterThreeBits.read 22 = none ↔
      streamAfterThreeBits.m_numHeldBits + 8 * unreadBytes streamAfterThreeBits < 22) ∧
    streamAfterThreeBits.read 22 = none ∧
    (streamAfterThreeBits.read 21).isSome = true :=
  have hreach : Reachable streamAfterThreeBits :=
    Reachable.read (BitInputStream.new { wordSize := 1, words := [165, 60, 255] }) 3
      { bits := 5, stream := streamAfterThreeBits, assertNumBits := true,
        assertAlignedWord := true }
      (Reachable.new _) (by decide) (by decide)
  ⟨hreach, by decide,
    (read_fails_iff_too_few_bits streamAfterThreeBits 22 hreach (by decide)).1,
    by decide, by decide⟩

/-- C3, at the failing input: on a freshly constructed stream over the bytes `01 00`,
`read(16)` has 16 unread bits and passes `assert(numBits <= 32)`, it loads two bytes into
`alignedWord = 0x0100 = 256` and returns 256, and `assert(alignedWord <= 255)` of line 95
is violated. -/
theorem read_alignedWord_assert_violated :
    Reachable (BitInputStream.new { wordSize := 1, words := [1, 0] }) ∧
    16 ≤ unreadBits (BitInputStream.new { wordSize := 1, words := [1, 0] }) ∧
    loadWord { block := [1, 0], pos := 0 } 2 = some (256, { block := [1, 0], pos := 2 }) ∧
    ∃ r, (BitInputStream.new { wordSize := 1, words := [1, 0] }).read 16 = some r ∧
      r.bits = 256 ∧ r.assertNumBits = true ∧ r.assertAlignedWord = false :=
  ⟨Reachable.new _, by decide, by decide, _, rfl, rfl, rfl, rfl⟩

/-! ## The binarization table -/

theorem tdiv_min : Int.tdiv INT32_MIN 2 = -1073741824 := by decide

theorem tdiv_max : Int.tdiv INT32_MAX 2 = 1073741823 := by decide

theorem toUInt64_min : toUInt64 (-1073741824) = 18446744072635809792 := by decide

theorem toUInt64_max : toUInt64 1073741823 = 1073741823 := by decide

theorem toUInt64_int32max : toUInt64 INT32_MAX = 2147483647 := by decide

theorem toInt64_small (n : Nat) (h : n < 9223372036854775808) : toInt64 n = (n : Int) := by
  unfold toInt64
  rw [Nat.mod_eq_of_lt (by omega), if_pos h]

theorem toInt64_large (n : Nat) (h1 : 9223372036854775808 ≤ n)
    (h2 : n < 18446744073709551616) : toInt64 n = (n : Int) - 18446744073709551616 := by
  unfold toInt64
  rw [Nat.mod_eq_of_lt h2, if_neg (by omega)]

theorem bi_maxValue (p : Nat) (h1 : 1 ≤ p) (h32 : p ≤ 32) :
    toInt64 (((1 <<< p) % 18446744073709551616 + 18446744073709551616 - 1)
        % 18446744073709551616) = 2 ^ p - 1 := by
  interval_cases p <;> decide

/-- C8: `binarizationInformation` has exactly six entries, in the order BI, TU, EG, SEG,
TEG, STEG, with the inclusive parameter ranges `[1,32]`, `[1,32]`, `[0,0]`, `[0,0]`,
`[0,255]`, `[0,255]` and the signedness flags false, false, false, true, false, true. -/
theorem binarization_table_entries :
    binarizationInformation.map (fun e => (e.name, e.paramMin, e.paramMax, e.isSigned)) =
      [("BI", 1, 32, false), ("TU", 1, 32, false), ("EG", 0, 0, false),
       ("SEG", 0, 0, true), ("TEG", 0, 255, false), ("STEG", 0, 255, true)] := by
  rfl

/-- C7: for every entry of `binarizationInformation` and every parameter `p` inside its
parameter range, `minValue(p)` and `maxValue(p)`, read as signed 64-bit integers, are the
values of the specification's table (BI `0` and `2^p - 1`, TU `0` and `p`, EG `0` and
`2147483647`, SEG `-1073741824` and `1073741823`, TEG `0` and `2147483647 + p`, STEG
`-1073741824 - p` and `1073741823 + p`). -/
theorem binarization_value_ranges (i p : Nat) (e : BinarizationProperties)
    (he : binarizationInformation[i]? = some e) (hlo : e.paramMin ≤ p) (hhi : p ≤ e.paramMax) :
    specValueRange e.name p = some (e.minValue p, e.maxValue p) := by
  have hi : i < 6 := by
    by_contra hge
    have hnone : binarizationInformation[i]? = none :=
      List.getElem?_eq_none (by simp only [binarizationInformation, List.length]; omega)
    rw [hnone] at he
    exact Option.noConfusion he
  interval_cases i
  all_goals
    simp only [binarizationInformation, List.getElem?_cons_zero, List.getElem?_cons_succ,
      Option.some.injEq] at he
    subst he
    simp only at hlo hhi
  · simp only [specValueRange, bi_maxValue p hlo hhi]
    rfl
  · simp only [specValueRange, toInt64_small p (by omega)]
    rfl
  · rfl
  · simp only [specValueRange, tdiv_min, tdiv_max]
    rfl
  · simp only [specValueRange, toUInt64_int32max]
    rw [Nat.mod_eq_of_lt (by omega), toInt64_small _ (by omega)]
    simp
  · simp only [specValueRange, tdiv_min, tdiv_max, toUInt64_min, toUInt64_max]
    rw [Nat.mod_eq_of_lt (show p < 18446744073709551616 by omega),
      Nat.mod_eq_of_lt (show 1073741823 + p < 18446744073709551616 by omega),
      toInt64_small _ (show 1073741823 + p < 9223372036854775808 by omega),
      show (18446744072635809792 + 18446744073709551616 - p) % 18446744073709551616
        = 18446744072635809792 - p by omega,
      toInt64_large _ (by omega) (by omega)]
    simp
    omega

/-- C7, at a concrete input: STEG with `p = 255` ranges over `-1073742079 … 1073742078`. -/
theorem binarization_value_ranges_witness :
    ∃ e, binarizationInformation[5]? = some e ∧ e.name = "STEG" ∧
      e.paramMin ≤ 255 ∧ 255 ≤ e.paramMax ∧
      specValueRange e.name 255 = some (e.minValue 255, e.maxValue 255) ∧
      e.minValue 255 = -1073742079 ∧ e.maxValue 255 = 1073742078 :=
  ⟨_, rfl, rfl, by decide, by decide,
    binarization_value_ranges 5 255 _ rfl (by decide) (by decide), by decide, by decide⟩

/-- Above its minimum the SEG range is mapped into the EG range: for
`SEG.minValue(0) < s ≤ SEG.maxValue(0)` the symbol handed to EG lies in
`[EG.minValue(0), EG.maxValue(0)]`. -/
theorem segToEg_in_eg_range (s : Int) (seg eg : BinarizationProperties)
    (hseg : binarizationInformation[3]? = some seg) (heg : binarizationInformation[2]? = some eg)
    (hlo : seg.minValue 0 < s) (hhi : s ≤ seg.maxValue 0) :
    eg.minValue 0 ≤ segToEg s ∧ segToEg s ≤ eg.maxValue 0 := by
  simp only [binarizationInformation, List.getElem?_cons_zero, List.getElem?_cons_succ,
    Option.some.injEq] at hseg heg
  subst hseg
  subst heg
  simp only [tdiv_min, tdiv_max] at hlo hhi
  simp only [INT32_MAX, segToEg]
  by_cases hs : s ≤ 0
  · rw [if_pos hs, abs_of_nonpos (by omega)]
    omega
  · rw [if_neg hs]
    omega

/-- C9, at the failing input: `s = -1073741824` lies in the range the table declares for
SEG (it is `SEG.minValue(0)`), the symbol SEG hands to EG for it is `|2s| = 2147483648`,
and that exceeds `EG.maxValue(0) = 2147483647`. -/
theorem seg_min_outside_eg_range :
    ∃ seg eg, binarizationInformation[3]? = some seg ∧ binarizationInformation[2]? = some eg ∧
      seg.name = "SEG" ∧ eg.name = "EG" ∧
      seg.minValue 0 = -1073741824 ∧ (-1073741824 : Int) ≤ seg.maxValue 0 ∧
      segToEg (-1073741824) = 2147483648 ∧ eg.maxValue 0 = 2147483647 ∧
      ¬ (segToEg (-1073741824) ≤ eg.maxValue 0) :=
  ⟨_, _, rfl, rfl, rfl, rfl, by decide, by decide, by decide, by decide, by decide⟩

/-! ## The transformation table -/

theorem table_index_lt (R : Routines) (i : Nat) (d : TransformationProperties)
    (hd : (transformationInformation R)[i]? = some d) : i < 7 := by
  by_contra hge
  have hnone : (transformationInformation R)[i]? = none :=
    List.getElem?_eq_none (by simp only [transformationInformation, List.length]; omega)
  rw [hnone] at hd
  exact Option.noConfusion hd

/-- C10: the descriptors of `transformationInformation` carry the stream names and word
sizes of the specification (equality_coding `raw_symbols`, `eq_flags` with `0, 1`;
rle_coding `raw_values`, `lengths` with `0, 1`; match_coding `raw_values`, `pointers`,
`lengths` with `0, 4, 4`; lut_coding `sequence`, `lut0`, `lut1` with `0, 0, 0`;
no_transform and diff_coding one stream of size 0), and in every descriptor the list of
stream names and the list of word sizes have the same length. -/
theorem transform_stream_names_wordsizes (R : Routines) :
    (transformationInformation R).map (fun d => (d.name, d.streamNames, d.wordsizes)) =
      [("no_transform", ["out"], [0]),
       ("equality_coding", ["raw_symbols", "eq_flags"], [0, 1]),
       ("match_coding", ["raw_values", "pointers", "lengths"], [0, 4, 4]),
       ("rle_coding", ["raw_values", "lengths"], [0, 1]),
       ("lut_coding", ["sequence", "lut0", "lut1"], [0, 0, 0]),
       ("diff_coding", ["sequence"], [0]),
       ("cabac", ["sequence"], [0])] ∧
    ∀ d ∈ transformationInformation R, d.streamNames.length = d.wordsizes.length := by
  refine ⟨rfl, ?_⟩
  intro d hd
  simp only [transformationInformation, List.mem_cons, List.mem_singleton, List.not_mem_nil,
    or_false] at hd
  rcases hd with h | h | h | h | h | h | h <;> subst h <;> rfl

/-- C6: `no_transform` is the identity: for every one-element vector `[D]` and every
parameter vector its forward and its inverse operation return `[D]` unchanged, hence the
inverse after the forward operation returns `[D]`. -/
theorem no_transform_identity (R : Routines) :
    ∃ d, (transformationInformation R)[0]? = some d ∧ d.name = "no_transform" ∧
      ∀ (param : List Nat) (D : DataBlock),
        d.transform param [D] = some [D] ∧ d.inverseTransform param [D] = some [D] ∧
        (d.transform param [D]).bind (d.inverseTransform param) = some [D] :=
  ⟨_, rfl, rfl, fun _ _ => ⟨rfl, rfl, rfl⟩⟩

/-- C5: for every descriptor of `transformationInformation`, whatever the per-block
routines are, the forward operation applied to a one-element vector leaves a vector whose
length is the number of the descriptor's stream names, and the inverse operation applied
to a vector of that many streams leaves exactly one stream (the parameter vectors hold
the entries the operation reads). -/
theorem transform_stream_counts (R : Routines) (i : Nat) (d : TransformationProperties)
    (paramF paramI : List Nat) (D : DataBlock) (v : List DataBlock)
    (hd : (transformationInformation R)[i]? = some d)
    (hf : forwardParams i ≤ paramF.length) (hb : inverseParams i ≤ paramI.length)
    (hv : v.length = d.streamNames.length) :
    (∃ out, d.transform paramF [D] = some out ∧ out.length = d.streamNames.length) ∧
    (∃ out, d.inverseTransform paramI v = some out ∧ out.length = 1) := by
  have hi := table_index_lt R i d hd
  interval_cases i
  all_goals
    simp only [transformationInformation, List.getElem?_cons_zero, List.getElem?_cons_succ,
      Option.some.injEq] at hd
    subst hd
    refine ⟨?_, ?_⟩
  · exact ⟨_, rfl, rfl⟩
  · obtain ⟨a, rfl⟩ := List.length_eq_one.mp hv
    exact ⟨_, rfl, rfl⟩
  · exact ⟨_, rfl, rfl⟩
  · obtain ⟨a, b, rfl⟩ := List.length_eq_two.mp hv
    exact ⟨_, rfl, rfl⟩
  · obtain ⟨p0, rest, rfl⟩ := List.exists_cons_of_length_pos (Nat.lt_of_lt_of_le Nat.one_pos hf)
    exact ⟨_, rfl, rfl⟩
  · obtain ⟨a, b, c, rfl⟩ := List.length_eq_three.mp hv
    exact ⟨_, rfl, rfl⟩
  · obtain ⟨p0, rest, rfl⟩ := List.exists_cons_of_length_pos (Nat.lt_of_lt_of_le Nat.one_pos hf)
    exact ⟨_, rfl, rfl⟩
  · obtain ⟨a, b, rfl⟩ := List.length_eq_two.mp hv
    obtain ⟨p0, rest, rfl⟩ := List.exists_cons_of_length_pos (Nat.lt_of_lt_of_le Nat.one_pos hb)
    exact ⟨_, rfl, rfl⟩
  · obtain ⟨p0, rest, rfl⟩ := List.exists_cons_of_length_pos (Nat.lt_of_lt_of_le Nat.one_pos hf)
    exact ⟨_, rfl, rfl⟩
  · obtain ⟨a, b, c, rfl⟩ := List.length_eq_three.mp hv
    obtain ⟨p0, rest, rfl⟩ := List.exists_cons_of_length_pos (Nat.lt_of_lt_of_le Nat.one_pos hb)
    exact ⟨_, rfl, rfl⟩
  · exact ⟨_, rfl, rfl⟩
  · obtain ⟨a, rfl⟩ := List.length_eq_one.mp hv
    exact ⟨_, rfl, rfl⟩
  · match paramF, hf with
    | p0 :: p1 :: p2 :: rest, _ => exact ⟨_, rfl, rfl⟩
  · obtain ⟨a, rfl⟩ := List.length_eq_one.mp hv
    match paramI, hb with
    | p0 :: p1 :: p2 :: p3 :: rest, _ => exact ⟨_, rfl, rfl⟩

/-- C5, at a concrete input: `rle_coding` with guard 3 turns `[D]` into two streams and
two streams into one. -/
theorem transform_stream_counts_witness :
    ∃ d, (transformationInformation idRoutines)[3]? = some d ∧ d.name = "rle_coding" ∧
      forwardParams 3 ≤ [3].length ∧ inverseParams 3 ≤ [3].length ∧
      [DataBlock.mk 1 [9], DataBlock.mk 1 [3, 0]].length = d.streamNames.length ∧
      (∃ out, d.transform [3] [DataBlock.mk 1 [9, 9, 9, 9, 9]] = some out ∧
        out.length = d.streamNames.length) ∧
      (∃ out, d.inverseTransform [3] [DataBlock.mk 1 [9], DataBlock.mk 1 [3, 0]] = some out ∧
        out.length = 1) :=
  ⟨_, rfl, rfl, by decide, by decide, rfl,
    transform_stream_counts idRoutines 3 _ [3] [3] (DataBlock.mk 1 [9, 9, 9, 9, 9])
      [DataBlock.mk 1 [9], DataBlock.mk 1 [3, 0]] rfl (by decide) (by decide) rfl⟩

/-! ## Positions and held bits after a read -/

/-- One call of `read` from a state that satisfies the invariant: the bytes pulled from
the stepper and the new held-bit count. -/
theorem read_pull (s : BitInputStream) (k : Nat) (hinv : StreamInv s) (hk : k ≤ 32)
    (hrem : k ≤ unreadBits s) :
    ∃ r, s.read k = some r ∧
      (k ≤ s.m_numHeldBits →
        r.stream.m_reader.pos = s.m_reader.pos ∧
        r.stream.m_numHeldBits = s.m_numHeldBits - k) ∧
      (s.m_numHeldBits < k →
        r.stream.m_reader.pos = s.m_reader.pos + (k - s.m_numHeldBits + 7) / 8 ∧
        r.stream.m_numHeldBits
          = 8 * ((k - s.m_numHeldBits + 7) / 8) - (k - s.m_numHeldBits)) := by
  obtain ⟨r, hr, _, hpos, hun, _, hblk, hinv2, _, _⟩ := read_step s k hinv hk hrem
  obtain ⟨_, i2, i3, _, i5⟩ := hinv
  obtain ⟨_, j2, j3, _, j5⟩ := hinv2
  simp only [bitPos] at hpos
  simp only [unreadBits, unreadBytes, hblk] at hun
  refine ⟨r, hr, ?_, ?_⟩
  · intro hle
    have := i5
    have := j5
    omega
  · intro hlt
    have := i5
    have := j5
    omega

/-- A successful call of `read` keeps the held-bits register equal to the byte pulled
last. -/
theorem read_heldByte (s : BitInputStream) (k : Nat) (r : ReadResult) (hinv : StreamInv s)
    (hheld : HeldByte s) (hk : k ≤ 32) (hr : s.read k = some r) : HeldByte r.stream := by
  obtain ⟨bs, ⟨blk, p⟩, hb, h⟩ := s
  obtain ⟨_, i2, i3, _, _⟩ := hinv
  simp only at i2 i3
  by_cases hle : k ≤ h
  · rw [read_of_le _ k hle] at hr
    cases hr
    exact hheld
  · have hsh : (k - h - 1) >>> 3 = (k - h - 1) / 8 := by
      rw [Nat.shiftRight_eq_div_pow]
    have hload := loadWord_eq blk p (((k - h - 1) >>> 3) + 1) (by omega) (by omega)
    have hread := read_of_gt ⟨bs, ⟨blk, p⟩, hb, h⟩ k hle
    by_cases hfit : p + (((k - h - 1) >>> 3) + 1) ≤ blk.length
    · rw [if_pos hfit] at hload
      simp only [hload] at hread
      rw [hread] at hr
      cases hr
      refine ⟨?_, ?_⟩
      · intro h0
        simp only at h0
        omega
      · intro _
        simp only
        rw [beWord_mod _ _ _ (by omega)]
    · rw [if_neg hfit] at hload
      simp only [hload] at hread
      rw [hread] at hr
      exact Option.noConfusion hr

theorem heldByte_new (d : DataBlock) : HeldByte (BitInputStream.new d) :=
  ⟨fun _ => rfl, fun h0 => absurd h0 (Nat.lt_irrefl 0)⟩

theorem heldByte_reset (s : BitInputStream) : HeldByte s.reset :=
  ⟨fun _ => rfl, fun h0 => absurd h0 (Nat.lt_irrefl 0)⟩

/-- In every reachable state the held-bits register is the byte pulled last. -/
theorem reachable_heldByte (s : BitInputStream) (hs : Reachable s) : HeldByte s := by
  induction hs with
  | new d => exact heldByte_new d
  | read s k r hs hk hr ih => exact read_heldByte s k r (reachable_inv s hs) ih hk hr
  | readByte s r a hs hr ih =>
    obtain ⟨r0, hr0, hst, _⟩ := readByte_some s r a hr
    rw [hst]
    exact read_heldByte s 8 r0 (reachable_inv s hs) ih (by decide) hr0
  | reset s _ _ => exact heldByte_reset s

/-- A state that satisfies the invariants is determined by its block and its read
position. -/
theorem stream_eq_of_bitPos (s t : BitInputStream) (hs : StreamInv s) (hsb : HeldByte s)
    (ht : StreamInv t) (htb : HeldByte t) (hblk : s.m_bitstream = t.m_bitstream)
    (hpos : bitPos s = bitPos t) : s = t := by
  obtain ⟨bs, ⟨blk, p⟩, hb, h⟩ := s
  obtain ⟨bt, ⟨blk2, q⟩, hb2, h2⟩ := t
  obtain ⟨i1, _, i3, _, i5⟩ := hs
  obtain ⟨j1, _, j3, _, j5⟩ := ht
  obtain ⟨k0, k1⟩ := hsb
  obtain ⟨l0, l1⟩ := htb
  simp only at i1 i3 i5 j1 j3 j5 k0 k1 l0 l1 hblk
  simp only [bitPos] at hpos
  subst hblk
  subst i1
  subst j1
  have hp : p = q := by
    have := i5
    have := j5
    omega
  subst hp
  have hh : h = h2 := by
    have := i5
    have := j5
    omega
  subst hh
  have hbb : hb = hb2 := by
    by_cases hp0 : p = 0
    · rw [k0 hp0, l0 hp0]
    · rw [k1 (by omega), l1 (by omega)]
  subst hbb
  rfl

theorem reachable_streamAfterThreeBits : Reachable streamAfterThreeBits :=
  Reachable.read (BitInputStream.new { wordSize := 1, words := [165, 60, 255] }) 3
    { bits := 5, stream := streamAfterThreeBits, assertNumBits := true,
      assertAlignedWord := true }
    (Reachable.new _) (by decide) (by decide)

/-- C12: held-bits invariant: in every state reachable from construction by successful
`read` (at most 32 bits), `readByte` and `reset` calls the held-bit count `m_numHeldBits`
lies in `[0,7]`. -/
theorem held_bits_at_most_seven (s : BitInputStream) (hs : Reachable s) :
    0 ≤ s.m_numHeldBits ∧ s.m_numHeldBits ≤ 7 :=
  ⟨Nat.zero_le _, (reachable_inv s hs).2.2.1⟩

/-- C12, at a concrete state: after three bits of `A5 3C FF` were read, 5 bits are held. -/
theorem held_bits_at_most_seven_witness :
    Reachable streamAfterThreeBits ∧ streamAfterThreeBits.m_numHeldBits = 5 ∧
    0 ≤ streamAfterThreeBits.m_numHeldBits ∧ streamAfterThreeBits.m_numHeldBits ≤ 7 :=
  ⟨reachable_streamAfterThreeBits, rfl,
    held_bits_at_most_seven streamAfterThreeBits reachable_streamAfterThreeBits⟩

/-- The values `read` computes compose, which is what a build without assertions
(`NDEBUG`) returns: from every reachable state, for `a + b ≤ 32` with at least `a + b`
unread bits, reading `a` bits and then `b` bits computes `x` and `y`, `read(a + b)` from
the same state computes `x * 2^b + y`, and both ways end in the same stream state.
Nothing is said here on the outcome of the assertions. -/
theorem read_computed_values_compose (s : BitInputStream) (a b : Nat) (hs : Reachable s) (hab : a + b ≤ 32)
    (hrem : a + b ≤ unreadBits s) :
    ∃ r1 r2 r3, s.read a = some r1 ∧ r1.stream.read b = some r2 ∧
      s.read (a + b) = some r3 ∧
      r3.bits = r1.bits * 2 ^ b + r2.bits ∧ r3.stream = r2.stream := by
  have hinv := reachable_inv s hs
  have hheld := reachable_heldByte s hs
  obtain ⟨r1, hr1, hb1, hp1, hu1, hk1, hblk1, hinv1, _, _⟩ :=
    read_step s a hinv (by omega) (by omega)
  have hheld1 := read_heldByte s a r1 hinv hheld (by omega) hr1
  obtain ⟨r2, hr2, hb2, hp2, hu2, hk2, hblk2, hinv2, _, _⟩ :=
    read_step r1.stream b hinv1 (by omega) (by omega)
  have hheld2 := read_heldByte r1.stream b r2 hinv1 hheld1 (by omega) hr2
  obtain ⟨r3, hr3, hb3, hp3, hu3, hk3, hblk3, hinv3, _, _⟩ :=
    read_step s (a + b) hinv hab hrem
  have hheld3 := read_heldByte s (a + b) r3 hinv hheld hab hr3
  refine ⟨r1, r2, r3, hr1, hr2, hr3, ?_, ?_⟩
  · rw [hb3, hb1, hb2, hblk1, hp1, bitField_add]
  · apply stream_eq_of_bitPos r3.stream r2.stream hinv3 hheld3 hinv2 hheld2
    · rw [hk3, hk2, hk1]
    · rw [hp3, hp2, hp1, Nat.add_assoc]

/-! ## `reset`, `readByte` and `getNumBitsUntilByteAligned` -/

theorem read_keeps_block (s : BitInputStream) (k : Nat) (r : ReadResult)
    (hr : s.read k = some r) : r.stream.m_bitstream = s.m_bitstream := by
  by_cases hle : k ≤ s.m_numHeldBits
  · rw [read_of_le s k hle] at hr
    cases hr
    rfl
  · rw [read_of_gt s k hle] at hr
    cases hload : loadWord s.m_reader (((k - s.m_numHeldBits - 1) >>> 3) + 1) with
    | none =>
      simp only [hload] at hr
      exact Option.noConfusion hr
    | some w =>
      simp only [hload] at hr
      cases hr
      rfl

theorem readAll_keeps_block (ks : List Nat) :
    ∀ (s t : BitInputStream) (vals : List Nat),
      readAll s ks = some (vals, t) → t.m_bitstream = s.m_bitstream := by
  induction ks with
  | nil =>
    intro s t vals h
    simp only [readAll, Option.some.injEq, Prod.mk.injEq] at h
    rw [← h.2]
  | cons k ks ih =>
    intro s t vals h
    simp only [readAll] at h
    cases hr : s.read k with
    | none =>
      simp only [hr] at h
      exact Option.noConfusion h
    | some r =>
      simp only [hr] at h
      cases hrest : readAll r.stream ks with
      | none =>
        simp only [hrest] at h
        exact Option.noConfusion h
      | some vt =>
        obtain ⟨v2, t2⟩ := vt
        simp only [hrest, Option.some.injEq, Prod.mk.injEq] at h
        rw [← h.2, ih r.stream t2 v2 hrest, read_keeps_block s k r hr]

/-- C16: `reset()` returns the stream to its initial state whatever was read before: after
any sequence of reads from a freshly constructed stream, `reset()` leaves 0 held bits and
the state of a freshly constructed stream over the same bytes, so every subsequent
sequence of reads returns the same values, or fails at the same point, as on a fresh
stream; `reset()` is idempotent. -/
theorem reset_restores_initial_state (d : DataBlock) (ks : List Nat) (vals : List Nat)
    (s : BitInputStream) (hrun : readAll (BitInputStream.new d) ks = some (vals, s)) :
    s.reset.m_numHeldBits = 0 ∧
    s.reset = BitInputStream.new d ∧
    (∀ ks2, readTrace s.reset ks2 = readTrace (BitInputStream.new d) ks2) ∧
    s.reset.reset = s.reset := by
  have hblk : s.m_bitstream = d := readAll_keeps_block ks _ s vals hrun
  have hreset : s.reset = BitInputStream.new d := by
    rw [← hblk]
    rfl
  refine ⟨rfl, hreset, ?_, rfl⟩
  intro ks2
  rw [hreset]

/-- C16, at a concrete input: after `read(3)` and `read(12)` on `A5 3C FF` a `reset()`
gives the fresh stream again, and `read(3)` returns 5 as it did the first time. -/
theorem reset_restores_initial_state_witness :
    ∃ s, readAll (BitInputStream.new { wordSize := 1, words := [165, 60, 255] }) [3, 12]
        = some ([5, 670], s) ∧
      s.m_numHeldBits = 1 ∧
      s.reset.m_numHeldBits = 0 ∧
      s.reset = BitInputStream.new { wordSize := 1, words := [165, 60, 255] } ∧
      readTrace s.reset [3, 12, 32] = [some 5, some 670, none] ∧
      s.reset.reset = s.reset :=
  ⟨_, rfl, rfl,
    (reset_restores_initial_state { wordSize := 1, words := [165, 60, 255] } [3, 12]
      [5, 670] _ rfl).1,
    (reset_restores_initial_state { wordSize := 1, words := [165, 60, 255] } [3, 12]
      [5, 670] _ rfl).2.1,
    by decide,
    (reset_restores_initial_state { wordSize := 1, words := [165, 60, 255] } [3, 12]
      [5, 670] _ rfl).2.2.2⟩

/-- C17: from every reachable state with at least 8 unread bits, `readByte()` returns the
next 8 unread bits as a value in `[0,255]`, pulls exactly one byte from the stepper,
leaves the held-bit count unchanged, and violates neither its own assertion
(`result <= 255`) nor the assertions inside `read`. -/
theorem readByte_returns_next_byte (s : BitInputStream) (hs : Reachable s)
    (hrem : 8 ≤ unreadBits s) :
    ∃ r a, s.readByte = some (r, a) ∧
      r.bits = bitField s.m_bitstream.words (bitPos s) 8 ∧
      r.bits ≤ 255 ∧
      r.stream.m_reader.pos = s.m_reader.pos + 1 ∧
      r.stream.m_numHeldBits = s.m_numHeldBits ∧
      a = true ∧ r.assertAlignedWord = true ∧ r.assertNumBits = true := by
  have hinv := reachable_inv s hs
  have h7 : s.m_numHeldBits ≤ 7 := hinv.2.2.1
  obtain ⟨r0, hr0, hbits, _, _, _, _, _, hnum, halign⟩ :=
    read_step s 8 hinv (by decide) hrem
  obtain ⟨r1, hr1, _, hgt⟩ := read_pull s 8 hinv (by decide) hrem
  rw [hr0] at hr1
  cases hr1
  obtain ⟨hp, hh⟩ := hgt (by omega)
  have hlt : r0.bits < 2 ^ 8 := by
    rw [hbits]
    exact bitField_lt _ _ _
  have hle : r0.bits ≤ 255 := by
    have : (2 : Nat) ^ 8 = 256 := by norm_num
    omega
  refine ⟨{ r0 with bits := r0.bits % 256 }, decide (r0.bits ≤ 255), ?_, ?_, ?_, ?_, ?_, ?_,
    ?_, ?_⟩
  · simp only [BitInputStream.readByte, hr0]
  · simp only
    rw [Nat.mod_eq_of_lt (by omega), hbits, hinv.1]
  · simp only
    omega
  · simp only
    rw [hp]
    omega
  · simp only
    rw [hh]
    omega
  · simp only [decide_eq_true_eq]
    exact hle
  · exact halign (by omega)
  · exact hnum

/-- C17, at a concrete state: after three bits of `A5 3C FF` were read, `readByte()`
returns the bits `0010 1001` (41), pulls one byte and leaves 5 bits held. -/
theorem readByte_returns_next_byte_witness :
    Reachable streamAfterThreeBits ∧ 8 ≤ unreadBits streamAfterThreeBits ∧
    bitField [165, 60, 255] 3 8 = 41 ∧
    ∃ r a, streamAfterThreeBits.readByte = some (r, a) ∧
      r.bits = bitField streamAfterThreeBits.m_bitstream.words
        (bitPos streamAfterThreeBits) 8 ∧
      r.bits ≤ 255 ∧
      r.stream.m_reader.pos = streamAfterThreeBits.m_reader.pos + 1 ∧
      r.stream.m_numHeldBits = streamAfterThreeBits.m_numHeldBits ∧
      a = true ∧ r.assertAlignedWord = true ∧ r.assertNumBits = true :=
  ⟨reachable_streamAfterThreeBits, by decide, by decide,
    readByte_returns_next_byte streamAfterThreeBits reachable_streamAfterThreeBits
      (by decide)⟩

theorem bitsRead_reachable (s : BitInputStream) (n : Nat) (h : BitsRead s n) :
    Reachable s ∧ bitPos s = n := by
  induction h with
  | new d => exact ⟨Reachable.new d, rfl⟩
  | read s n k r _ hk hr ih =>
    obtain ⟨hreach, hpos⟩ := ih
    have hinv := reachable_inv s hreach
    have hrem : k ≤ unreadBits s := by
      by_contra hlt
      have := (read_none_iff s k hinv hk).mpr (by omega)
      rw [this] at hr
      exact Option.noConfusion hr
    obtain ⟨r1, hr1, _, hp, _⟩ := read_step s k hinv hk hrem
    rw [hr] at hr1
    cases hr1
    exact ⟨Reachable.read s k r hreach hk hr, by rw [hp, hpos]⟩
  | readByte s n r a _ hr ih =>
    obtain ⟨hreach, hpos⟩ := ih
    have hinv := reachable_inv s hreach
    obtain ⟨r0, hr0, hst, _⟩ := readByte_some s r a hr
    have hrem : 8 ≤ unreadBits s := by
      by_contra hlt
      have := (read_none_iff s 8 hinv (by decide)).mpr (by omega)
      rw [this] at hr0
      exact Option.noConfusion hr0
    obtain ⟨r1, hr1, _, hp, _⟩ := read_step s 8 hinv (by decide) hrem
    rw [hr0] at hr1
    cases hr1
    exact ⟨Reachable.readByte s r a hreach hr, by rw [hst, hp, hpos]⟩
  | reset s n _ ih => exact ⟨Reachable.reset s ih.1, rfl⟩

theorem and_seven (h : Nat) (h7 : h ≤ 7) : h &&& 0x7 = h := by
  interval_cases h <;> rfl

/-- C18: after a total of `n` bits have been read successfully since construction or the
last `reset` (by any sequence of reads of at most 32 bits each),
`getNumBitsUntilByteAligned()` returns `(8 - n mod 8) mod 8`, and it returns 0 exactly
when `n` is a multiple of 8. -/
theorem bits_until_byte_aligned (s : BitInputStream) (n : Nat) (h : BitsRead s n) :
    s.getNumBitsUntilByteAligned = (8 - n % 8) % 8 ∧
    (s.getNumBitsUntilByteAligned = 0 ↔ n % 8 = 0) := by
  obtain ⟨hreach, hpos⟩ := bitsRead_reachable s n h
  obtain ⟨_, _, i3, _, i5⟩ := reachable_inv s hreach
  simp only [bitPos] at hpos
  simp only [BitInputStream.getNumBitsUntilByteAligned]
  rw [and_seven _ i3]
  have := i5
  constructor <;> omega

/-- C18, at a concrete state: after three bits were read, 5 bits are left to the next byte
boundary. -/
theorem bits_until_byte_aligned_witness :
    BitsRead streamAfterThreeBits (0 + 3) ∧
    streamAfterThreeBits.getNumBitsUntilByteAligned = 5 ∧
    streamAfterThreeBits.getNumBitsUntilByteAligned = (8 - (0 + 3) % 8) % 8 ∧
    (streamAfterThreeBits.getNumBitsUntilByteAligned = 0 ↔ (0 + 3) % 8 = 0) :=
  have hbits : BitsRead streamAfterThreeBits (0 + 3) :=
    BitsRead.read (BitInputStream.new { wordSize := 1, words := [165, 60, 255] }) 0 3
      { bits := 5, stream := streamAfterThreeBits, assertNumBits := true,
        assertAlignedWord := true }
      (BitsRead.new _) (by decide) (by decide)
  ⟨hbits, by decide, bits_until_byte_aligned streamAfterThreeBits (0 + 3) hbits⟩

/-! ## More on the tables -/

/-- C11, as the claim states it: the table does not have eight entries. -/
theorem transform_table_not_eight :
    ¬ (transformationInformation idRoutines).length = 8 := by
  decide

/-- C11, amended: `transformationInformation` contains exactly seven transforms
(no_transform, equality_coding, match_coding, rle_coding, lut_coding, diff_coding, cabac),
each an entry with a name, an ordered stream-name list, a word-size list, a forward and an
inverse operation. -/
theorem transform_table_seven (R : Routines) :
    (transformationInformation R).length = 7 ∧
    (transformationInformation R).map (fun d => d.name) =
      ["no_transform", "equality_coding", "match_coding", "rle_coding", "lut_coding",
       "diff_coding", "cabac"] ∧
    (transformationInformation R).map (fun d => d.streamNames.length) = [1, 2, 3, 2, 3, 1, 1] ∧
    (transformationInformation R).map (fun d => d.wordsizes.length) = [1, 2, 3, 2, 3, 1, 1] :=
  ⟨rfl, rfl, rfl, rfl⟩

/-- C14: for every one-element input vector `[D]` the forward operation hands the
per-block routine `D` as stream 0 and, for each auxiliary stream, an empty block whose
word size is the word size the descriptor declares for that stream, or the word size of
`D` when it declares 0: word size 1 for stream 1 of equality_coding and rle_coding, word
size 4 for streams 1 and 2 of match_coding, the word size of `D` for streams 1 and 2 of
lut_coding. The vector left behind holds what the routine returns. -/
theorem forward_hands_aux_blocks (R : Routines) (D : DataBlock) (p0 : Nat) (rest : List Nat) :
    (∀ w, (auxBlock D w).words.length = 0 ∧
      (auxBlock D w).wordSize = if w = 0 then D.wordSize else w) ∧
    (∃ d, (transformationInformation R)[1]? = some d ∧ d.name = "equality_coding" ∧
      auxBlock D (d.wordsizes.getD 1 0) = DataBlock.construct 0 1 ∧
      d.transform (p0 :: rest) [D] =
        some [(R.transformEqualityCoding D (auxBlock D (d.wordsizes.getD 1 0))).1,
              (R.transformEqualityCoding D (auxBlock D (d.wordsizes.getD 1 0))).2]) ∧
    (∃ d, (transformationInformation R)[3]? = some d ∧ d.name = "rle_coding" ∧
      auxBlock D (d.wordsizes.getD 1 0) = DataBlock.construct 0 1 ∧
      d.transform (p0 :: rest) [D] =
        some [(R.transformRleCoding p0 D (auxBlock D (d.wordsizes.getD 1 0))).1,
              (R.transformRleCoding p0 D (auxBlock D (d.wordsizes.getD 1 0))).2]) ∧
    (∃ d, (transformationInformation R)[2]? = some d ∧ d.name = "match_coding" ∧
      auxBlock D (d.wordsizes.getD 1 0) = DataBlock.construct 0 4 ∧
      auxBlock D (d.wordsizes.getD 2 0) = DataBlock.construct 0 4 ∧
      d.transform (p0 :: rest) [D] =
        some [(R.transformMatchCoding (p0 % 4294967296) D (auxBlock D (d.wordsizes.getD 1 0))
                (auxBlock D (d.wordsizes.getD 2 0))).1,
              (R.transformMatchCoding (p0 % 4294967296) D (auxBlock D (d.wordsizes.getD 1 0))
                (auxBlock D (d.wordsizes.getD 2 0))).2.1,
              (R.transformMatchCoding (p0 % 4294967296) D (auxBlock D (d.wordsizes.getD 1 0))
                (auxBlock D (d.wordsizes.getD 2 0))).2.2]) ∧
    (∃ d, (transformationInformation R)[4]? = some d ∧ d.name = "lut_coding" ∧
      auxBlock D (d.wordsizes.getD 1 0) = DataBlock.construct 0 D.wordSize ∧
      auxBlock D (d.wordsizes.getD 2 0) = DataBlock.construct 0 D.wordSize ∧
      d.transform (p0 :: rest) [D] =
        some [(R.transformLutTransform (p0 % 4294967296) D (auxBlock D (d.wordsizes.getD 1 0))
                (auxBlock D (d.wordsizes.getD 2 0))).1,
              (R.transformLutTransform (p0 % 4294967296) D (auxBlock D (d.wordsizes.getD 1 0))
                (auxBlock D (d.wordsizes.getD 2 0))).2.1,
              (R.transformLutTransform (p0 % 4294967296) D (auxBlock D (d.wordsizes.getD 1 0))
                (auxBlock D (d.wordsizes.getD 2 0))).2.2]) := by
  refine ⟨?_, ⟨_, rfl, rfl, rfl, rfl⟩, ⟨_, rfl, rfl, rfl, rfl⟩, ⟨_, rfl, rfl, rfl, rfl, rfl⟩,
    ⟨_, rfl, rfl, rfl, rfl, rfl⟩⟩
  intro w
  exact ⟨rfl, rfl⟩

theorem binarization_index_lt (i : Nat) (e : BinarizationProperties)
    (he : binarizationInformation[i]? = some e) : i < 6 := by
  by_contra hge
  have hnone : binarizationInformation[i]? = none :=
    List.getElem?_eq_none (by simp only [binarizationInformation, List.length]; omega)
  rw [hnone] at he
  exact Option.noConfusion he

/-- C19: in `binarizationInformation` the signedness flag agrees with the value range: for
every entry and every parameter `p` inside its parameter range,
`minValue(p) ≤ 0 ≤ maxValue(p)`, and `minValue(p) < 0` exactly when the entry is signed
(an unsigned entry has `minValue(p) = 0`). -/
theorem signedness_agrees_with_range (i p : Nat) (e : BinarizationProperties)
    (he : binarizationInformation[i]? = some e) (hlo : e.paramMin ≤ p) (hhi : p ≤ e.paramMax) :
    e.minValue p ≤ 0 ∧ 0 ≤ e.maxValue p ∧
    (e.minValue p < 0 ↔ e.isSigned = true) ∧
    (e.isSigned = false → e.minValue p = 0) := by
  have hi := binarization_index_lt i e he
  interval_cases i
  all_goals
    simp only [binarizationInformation, List.getElem?_cons_zero, List.getElem?_cons_succ,
      Option.some.injEq] at he
    subst he
    simp only at hlo hhi
  · have hmax := bi_maxValue p hlo hhi
    have hpow : (1 : Int) ≤ 2 ^ p := one_le_pow₀ (by norm_num)
    refine ⟨le_refl _, ?_, ?_, fun _ => rfl⟩
    · dsimp only
      rw [hmax]
      omega
    · exact ⟨fun h => absurd h (lt_irrefl _), fun h => Bool.noConfusion h⟩
  · refine ⟨le_refl _, ?_, ?_, fun _ => rfl⟩
    · dsimp only
      rw [toInt64_small p (by omega)]
      omega
    · exact ⟨fun h => absurd h (lt_irrefl _), fun h => Bool.noConfusion h⟩
  · refine ⟨le_refl _, ?_, ?_, fun _ => rfl⟩
    · dsimp only
      decide
    · exact ⟨fun h => absurd h (lt_irrefl _), fun h => Bool.noConfusion h⟩
  · refine ⟨?_, ?_, ?_, fun h => Bool.noConfusion h⟩
    · dsimp only
      decide
    · dsimp only
      decide
    · refine ⟨fun _ => rfl, fun _ => ?_⟩
      dsimp only
      decide
  · refine ⟨le_refl _, ?_, ?_, fun _ => rfl⟩
    · dsimp only
      rw [toUInt64_int32max, Nat.mod_eq_of_lt (by omega), toInt64_small _ (by omega)]
      omega
    · exact ⟨fun h => absurd h (lt_irrefl _), fun h => Bool.noConfusion h⟩
  · have hmin : toInt64 ((toUInt64 (Int.tdiv INT32_MIN 2) + 18446744073709551616
          - p % 18446744073709551616) % 18446744073709551616) = -1073741824 - (p : Int) := by
      rw [tdiv_min, toUInt64_min, Nat.mod_eq_of_lt (show p < 18446744073709551616 by omega),
        (by omega : (18446744072635809792 + 18446744073709551616 - p) % 18446744073709551616
          = 18446744072635809792 - p),
        toInt64_large _ (by omega) (by omega)]
      omega
    have hmax : toInt64 ((toUInt64 (Int.tdiv INT32_MAX 2) + p) % 18446744073709551616)
        = 1073741823 + (p : Int) := by
      rw [tdiv_max, toUInt64_max,
        Nat.mod_eq_of_lt (show 1073741823 + p < 18446744073709551616 by omega),
        toInt64_small _ (show 1073741823 + p < 9223372036854775808 by omega)]
      simp
    refine ⟨?_, ?_, ?_, fun h => Bool.noConfusion h⟩
    · dsimp only
      rw [hmin]
      omega
    · dsimp only
      rw [hmax]
      omega
    · refine ⟨fun _ => rfl, fun _ => ?_⟩
      dsimp only
      rw [hmin]
      omega

/-- C19, at a concrete input: SEG is signed and ranges over `-1073741824 … 1073741823`. -/
theorem signedness_agrees_with_range_witness :
    ∃ e, binarizationInformation[3]? = some e ∧ e.name = "SEG" ∧
      e.paramMin ≤ 0 ∧ 0 ≤ e.paramMax ∧ e.isSigned = true ∧ e.minValue 0 = -1073741824 ∧
      e.minValue 0 ≤ 0 ∧ 0 ≤ e.maxValue 0 ∧
      (e.minValue 0 < 0 ↔ e.isSigned = true) ∧
      (e.isSigned = false → e.minValue 0 = 0) :=
  ⟨_, rfl, rfl, by decide, by decide, rfl, by decide,
    signedness_agrees_with_range 3 0 _ rfl (by decide) (by decide)⟩

theorem resize_length (v : List DataBlock) (n : Nat) (fill : DataBlock) :
    (resize v n fill).length = n := by
  simp only [resize, List.length_append, List.length_take, List.length_replicate]
  omega

/-- C20: index safety of the transformation table: for every descriptor, the forward
operation applied to any vector of blocks (the empty one included) with a parameter vector
of at least 3 entries, and the inverse operation applied to a vector with at least as many
blocks as the descriptor has stream names with a parameter vector of at least 4 entries,
never index a stream or a parameter out of bounds; the forward operation resizes the
vector before it indexes it. -/
theorem transform_index_safety (R : Routines) (i : Nat) (d : TransformationProperties)
    (paramF paramI : List Nat) (v w : List DataBlock)
    (hd : (transformationInformation R)[i]? = some d)
    (hf : 3 ≤ paramF.length) (hb : 4 ≤ paramI.length)
    (hw : d.streamNames.length ≤ w.length) :
    (d.transform paramF v).isSome = true ∧ (d.transform paramF []).isSome = true ∧
    (d.inverseTransform paramI w).isSome = true := by
  have hi := table_index_lt R i d hd
  obtain ⟨p0, p1, p2, restF, rfl⟩ : ∃ p0 p1 p2 rest, paramF = p0 :: p1 :: p2 :: rest := by
    match paramF, hf with
    | p0 :: p1 :: p2 :: rest, _ => exact ⟨p0, p1, p2, rest, rfl⟩
  obtain ⟨q0, q1, q2, q3, restI, rfl⟩ :
      ∃ q0 q1 q2 q3 rest, paramI = q0 :: q1 :: q2 :: q3 :: rest := by
    match paramI, hb with
    | q0 :: q1 :: q2 :: q3 :: rest, _ => exact ⟨q0, q1, q2, q3, rest, rfl⟩
  obtain ⟨a1, h1⟩ := List.length_eq_one.mp (resize_length v 1 R.defaultBlock)
  obtain ⟨a2, b2, h2⟩ := List.length_eq_two.mp (resize_length v 2 R.defaultBlock)
  obtain ⟨a3, b3, c3, h3⟩ := List.length_eq_three.mp (resize_length v 3 R.defaultBlock)
  interval_cases i
  all_goals
    simp only [transformationInformation, List.getElem?_cons_zero, List.getElem?_cons_succ,
      Option.some.injEq] at hd
    subst hd
    simp only [List.length] at hw
    refine ⟨?_, rfl, ?_⟩
  · rfl
  · rfl
  · simp only [equalityCodingForward, h2]
    rfl
  · match w, hw with
    | a :: b :: rest, _ => simp [equalityCodingInverse, elemAt, assign]
  · simp only [matchCodingForward, h3]
    rfl
  · match w, hw with
    | a :: b :: c :: rest, _ => simp [matchCodingInverse, elemAt, assign]
  · simp only [rleCodingForward, h2]
    rfl
  · match w, hw with
    | a :: b :: rest, _ => simp [rleCodingInverse, elemAt, assign]
  · simp only [lutCodingForward, h3]
    rfl
  · match w, hw with
    | a :: b :: c :: rest, _ => simp [lutCodingInverse, elemAt, assign]
  · simp only [diffCodingForward, h1]
    rfl
  · obtain ⟨a, ha⟩ := List.length_eq_one.mp (resize_length w 1 R.defaultBlock)
    simp only [diffCodingInverse, ha]
    rfl
  · simp only [cabacForward, h1]
    rfl
  · obtain ⟨a, ha⟩ := List.length_eq_one.mp (resize_length w 1 R.defaultBlock)
    simp only [cabacInverse, ha]
    rfl

/-- C20, at a concrete input: `match_coding` forward on the empty vector and inverse on three
blocks, with parameter vectors of 3 and 4 entries, index nothing out of bounds. -/
theorem transform_index_safety_witness :
    ∃ d, (transformationInformation idRoutines)[2]? = some d ∧ d.name = "match_coding" ∧
      3 ≤ [16, 0, 0].length ∧ 4 ≤ [16, 0, 0, 0].length ∧
      d.streamNames.length ≤ [DataBlock.mk 1 [1], DataBlock.mk 4 [0], DataBlock.mk 4 [0]].length ∧
      (d.transform [16, 0, 0] [DataBlock.mk 1 [1, 2, 3]]).isSome = true ∧
      (d.transform [16, 0, 0] []).isSome = true ∧
      (d.inverseTransform [16, 0, 0, 0]
        [DataBlock.mk 1 [1], DataBlock.mk 4 [0], DataBlock.mk 4 [0]]).isSome = true :=
  ⟨_, rfl, rfl, by decide, by decide, by decide,
    transform_index_safety idRoutines 2 _ [16, 0, 0] [16, 0, 0, 0] [DataBlock.mk 1 [1, 2, 3]]
      [DataBlock.mk 1 [1], DataBlock.mk 4 [0], DataBlock.mk 4 [0]] rfl (by decide) (by decide)
      (by decide)⟩

/-! ## The assertion of line 95 on the reads above -/

/-- A read that has to load bytes, from a state that satisfies the invariant and with
enough unread bits: the word `loadWord` pulls, and the record of the call, whose
`assertAlignedWord` is the outcome of `assert(alignedWord <= 255)` on that word. -/
theorem read_load_record (s : BitInputStream) (k : Nat) (hinv : StreamInv s) (hk : k ≤ 32)
    (hrem : k ≤ unreadBits s) (hgt : s.m_numHeldBits < k) :
    ∃ w rd, loadWord s.m_reader (((k - s.m_numHeldBits - 1) >>> 3) + 1) = some (w, rd) ∧
      rd.block = s.m_reader.block ∧
      rd.pos = s.m_reader.pos + (((k - s.m_numHeldBits - 1) >>> 3) + 1) ∧
      ∃ r, s.read k = some r ∧ r.assertNumBits = true ∧
        r.assertAlignedWord = decide (w ≤ 255) ∧ r.stream.m_reader = rd := by
  obtain ⟨bs, ⟨blk, p⟩, hb, h⟩ := s
  obtain ⟨_, i2, i3, _, _⟩ := hinv
  simp only at i2 i3 hgt
  simp only [unreadBits, unreadBytes] at hrem
  have hle : ¬ k ≤ h := by omega
  have hsh : (k - h - 1) >>> 3 = (k - h - 1) / 8 := by
    rw [Nat.shiftRight_eq_div_pow]
  have hload := loadWord_eq blk p (((k - h - 1) >>> 3) + 1) (by omega) (by omega)
  rw [if_pos (by omega)] at hload
  have hread := read_of_gt ⟨bs, ⟨blk, p⟩, hb, h⟩ k hle
  simp only [hload] at hread
  refine ⟨_, _, hload, rfl, rfl, _, hread, ?_, rfl, rfl⟩
  simp [hk]

/-- C1, at the failing input: on a freshly constructed stream over the bytes `01 00` with
16 unread bits, the next 16 bits are the integer 256 and `read(16)` computes it, but on
the way `assert(alignedWord <= 255)` of line 95 is violated, so a build with assertions
aborts instead of returning the value. -/
theorem read_value_lost_to_assert :
    Reachable (BitInputStream.new { wordSize := 1, words := [1, 0] }) ∧
    16 ≤ 32 ∧
    16 ≤ unreadBits (BitInputStream.new { wordSize := 1, words := [1, 0] }) ∧
    bitPos (BitInputStream.new { wordSize := 1, words := [1, 0] }) = 0 ∧
    bitField [1, 0] 0 16 = 256 ∧
    ∃ r, (BitInputStream.new { wordSize := 1, words := [1, 0] }).read 16 = some r ∧
      r.bits = bitField [1, 0] 0 16 ∧ r.assertAlignedWord = false :=
  ⟨Reachable.new _, by decide, by decide, rfl, by decide, _, rfl, by decide, rfl⟩

/-- C13, as the claim states it: with 5 bits held and 2 unread bytes, `read(22)` would
have to pull `ceil((22 - 5) / 8) = 3` bytes; `readIn` raises the out-of-bounds error on
the third, so the call neither pulls 3 bytes nor leaves a new held-bit count. -/
theorem read_pulls_fewer_when_short :
    Reachable streamAfterThreeBits ∧ 22 ≤ 32 ∧
    streamAfterThreeBits.m_numHeldBits = 5 ∧ (22 - 5 + 7) / 8 = 3 ∧
    unreadBytes streamAfterThreeBits = 2 ∧
    loadWord streamAfterThreeBits.m_reader 3 = none ∧
    ¬ ∃ r, streamAfterThreeBits.read 22 = some r ∧
      r.stream.m_reader.pos = streamAfterThreeBits.m_reader.pos + (22 - 5 + 7) / 8 ∧
      r.stream.m_numHeldBits = 8 * ((22 - 5 + 7) / 8) - (22 - 5) := by
  refine ⟨reachable_streamAfterThreeBits, by decide, rfl, by decide, by decide, by decide, ?_⟩
  rintro ⟨r, hr, _⟩
  have hnone : streamAfterThreeBits.read 22 = none := by decide
  rw [hnone] at hr
  exact Option.noConfusion hr

/-- C13, amended: from every reachable state with `h` held bits, for every `k` in `[0,32]`
with at least `k` unread bits: if `k ≤ h`, `read(k)` pulls no byte, violates no assertion
and leaves `h - k` bits held; if `k > h`, `numBytesToLoad` is `ceil((k - h) / 8)`, a number
between 1 and 4 (so the jump never goes to `L0`), exactly that many bytes are pulled from
the stepper, and the call, which passes `assert(alignedWord <= 255)` exactly when the
loaded word is at most 255, leaves `8 * ceil((k - h) / 8) - (k - h)` bits held. -/
theorem read_pulls_bytes_when_enough (s : BitInputStream) (k : Nat) (hs : Reachable s)
    (hk : k ≤ 32) (hrem : k ≤ unreadBits s) :
    (k ≤ s.m_numHeldBits →
      ∃ r, s.read k = some r ∧ r.assertNumBits = true ∧ r.assertAlignedWord = true ∧
        r.stream.m_reader = s.m_reader ∧
        r.stream.m_numHeldBits = s.m_numHeldBits - k) ∧
    (s.m_numHeldBits < k →
      ((k - s.m_numHeldBits - 1) >>> 3) + 1 = (k - s.m_numHeldBits + 7) / 8 ∧
      1 ≤ (k - s.m_numHeldBits + 7) / 8 ∧ (k - s.m_numHeldBits + 7) / 8 ≤ 4 ∧
      ∃ w rd, loadWord s.m_reader (((k - s.m_numHeldBits - 1) >>> 3) + 1) = some (w, rd) ∧
        rd.block = s.m_reader.block ∧
        rd.pos = s.m_reader.pos + (k - s.m_numHeldBits + 7) / 8 ∧
        ∃ r, s.read k = some r ∧ r.assertNumBits = true ∧
          r.assertAlignedWord = decide (w ≤ 255) ∧ r.stream.m_reader = rd ∧
          r.stream.m_numHeldBits
            = 8 * ((k - s.m_numHeldBits + 7) / 8) - (k - s.m_numHeldBits)) := by
  have hinv := reachable_inv s hs
  constructor
  · intro hle
    refine ⟨_, read_of_le s k hle, ?_, rfl, rfl, rfl⟩
    simp [hk]
  · intro hlt
    have hceil : ((k - s.m_numHeldBits - 1) >>> 3) + 1 = (k - s.m_numHeldBits + 7) / 8 := by
      rw [Nat.shiftRight_eq_div_pow]
      omega
    obtain ⟨w, rd, hload, hblk, hpos, r, hr, hnum, halign, hrd⟩ :=
      read_load_record s k hinv hk hrem hlt
    obtain ⟨r1, hr1, _, hgt⟩ := read_pull s k hinv hk hrem
    rw [hr] at hr1
    cases hr1
    obtain ⟨_, hh⟩ := hgt hlt
    exact ⟨hceil, by omega, by omega, w, rd, hload, hblk, by rw [hpos, hceil], r, hr, hnum,
      halign, hrd, hh⟩

/-- C13 amended, at a concrete state: with 5 bits held and 21 unread bits, `read(4)` pulls
no byte and leaves 1 bit held; `read(12)` loads `numBytesToLoad = 1` byte, the word `3C`,
moves the stepper from byte 1 to byte 2, passes the assertions and leaves 1 bit held. -/
theorem read_pulls_bytes_when_enough_witness :
    Reachable streamAfterThreeBits ∧ 12 ≤ 32 ∧ 12 ≤ unreadBits streamAfterThreeBits ∧
    streamAfterThreeBits.m_numHeldBits = 5 ∧ streamAfterThreeBits.m_reader.pos = 1 ∧
    (∃ w rd, loadWord streamAfterThreeBits.m_reader 1 = some (w, rd) ∧ w = 60 ∧ rd.pos = 2 ∧
      ∃ r, streamAfterThreeBits.read 12 = some r ∧ r.assertNumBits = true ∧
        r.assertAlignedWord = true ∧ r.stream.m_reader = rd ∧
        r.stream.m_numHeldBits = 1) ∧
    (∃ r, streamAfterThreeBits.read 4 = some r ∧ r.assertNumBits = true ∧
      r.assertAlignedWord = true ∧ r.stream.m_reader = streamAfterThreeBits.m_reader ∧
      r.stream.m_numHeldBits = 1) := by
  refine ⟨reachable_streamAfterThreeBits, by decide, by decide, rfl, rfl, ?_, ?_⟩
  · obtain ⟨_, _, _, w, rd, hload, _, hpos, r, hr, hnum, halign, hrd, hh⟩ :=
      (read_pulls_bytes_when_enough streamAfterThreeBits 12 reachable_streamAfterThreeBits
        (by decide) (by decide)).2 (by decide)
    have hw : loadWord streamAfterThreeBits.m_reader 1
        = some (60, { block := [165, 60, 255], pos := 2 }) := by decide
    have hload1 : loadWord streamAfterThreeBits.m_reader 1 = some (w, rd) := hload
    rw [hw] at hload1
    simp only [Option.some.injEq, Prod.mk.injEq] at hload1
    obtain ⟨hw60, hrd2⟩ := hload1
    subst hw60
    exact ⟨60, rd, hload, rfl, hpos, r, hr, hnum, by rw [halign]; rfl, hrd, hh⟩
  · exact (read_pulls_bytes_when_enough streamAfterThreeBits 4 reachable_streamAfterThreeBits
      (by decide) (by decide)).1 (by decide)

/-- C15, at the failing input: on a freshly constructed stream over the bytes `01 00`,
`read(8)` returns 1 and a second `read(8)` returns 0, both without violating an
assertion; `read(16)` from the same state computes `1 * 2^8 + 0 = 256` and ends in the
same stream state, but it violates `assert(alignedWord <= 255)` of line 95, so a build
with assertions aborts instead of returning the composed value. -/
theorem read_compose_lost_to_assert :
    Reachable (BitInputStream.new { wordSize := 1, words := [1, 0] }) ∧
    8 + 8 ≤ 32 ∧
    8 + 8 ≤ unreadBits (BitInputStream.new { wordSize := 1, words := [1, 0] }) ∧
    ∃ r1 r2 r3,
      (BitInputStream.new { wordSize := 1, words := [1, 0] }).read 8 = some r1 ∧
      r1.bits = 1 ∧ r1.assertAlignedWord = true ∧
      r1.stream.read 8 = some r2 ∧ r2.bits = 0 ∧ r2.assertAlignedWord = true ∧
      (BitInputStream.new { wordSize := 1, words := [1, 0] }).read (8 + 8) = some r3 ∧
      r3.bits = r1.bits * 2 ^ 8 + r2.bits ∧ r3.stream = r2.stream ∧
      r3.assertAlignedWord = false :=
  ⟨Reachable.new _, by decide, by decide, _, _, _, rfl, rfl, rfl, rfl, rfl, rfl, rfl, rfl,
    rfl, rfl⟩

end gabac
